import Mathlib

/-!
Verification of the kdash time-series core against its specification.

The development shallowly embeds the four core components:
* `KDash.merge_and_deduplicate`  — src/data/incremental_data_manager.py
* `KDash.standardize_to_daily_utc` and `KDash.create_continuous_index_with_nan`
  — src/data/time_transformer.py
* `KDash.Zscore.normalize` — src/data/normalizers/zscore.py
* `KDash.calculate_composite_average` — app.py
* `KDash.simple_threshold_regimes` — src/data/markov_regime.py
* `KDash.calculate_gk_volatility` — src/data/volatility.py

Conventions of the embedding:
* timestamps are epoch-millisecond integers, embedded as `Int`;
* IEEE doubles are embedded as exact rationals `ℚ` (the usual exact-arithmetic
  shallow embedding); values that the code computes with `math.sqrt`/`math.log`
  live in `ℝ`;
* a JSON `null` value is `none : Option ℚ`;
* Python's stable `list.sort(key=...)` is embedded as insertion sort on the
  timestamp key (insertion sort is stable, so it computes the same list).
-/

namespace KDash

/-- A data record `[timestamp, ...]`: an integer epoch-millisecond timestamp
paired with a payload `β` (a single value, or OHLCV fields). -/
abbrev Rec (β : Type) := Int × β

variable {β : Type} {κ : Type}

/-- The sublist of records of `l` that carry timestamp `t` (in order). -/
def occs (t : Int) (l : List (Rec β)) : List (Rec β) :=
  l.filter (fun r => r.1 = t)

/-- Keep only the last element of a list (empty list if there is none). -/
def lastOne (l : List α) : List α :=
  match l.getLast? with
  | none => []
  | some a => [a]

/-- Lookup in a Python dict built as `{rec[0]: rec for rec in l}`:
later records with the same key overwrite earlier ones, so the *last*
record with the given key wins. -/
def dictLookup [DecidableEq κ] (t : κ) : List (κ × β) → Option (κ × β)
  | [] => none
  | r :: rs =>
    match dictLookup t rs with
    | some v => some v
    | none => if r.1 = t then some r else none

/-- `max(record[0] for record in l)` for a nonempty `l` (0 for the empty list,
which the code never queries). -/
def tsMax : List (Rec β) → Int
  | [] => 0
  | r :: rs => rs.foldl (fun m x => max m x.1) r.1

/-- Timestamp-key ordering used by `list.sort(key=lambda x: x[0])`. -/
def tsLe (a b : Rec β) : Prop := a.1 ≤ b.1

instance : DecidableRel (tsLe (β := β)) :=
  fun a b => inferInstanceAs (Decidable (a.1 ≤ b.1))

instance : IsTotal (Rec β) tsLe := ⟨fun a b => le_total a.1 b.1⟩

instance : IsTrans (Rec β) tsLe := ⟨fun _ _ _ h1 h2 => le_trans h1 h2⟩

/-- Python's `combined_data.sort(key=lambda x: x[0])`: a stable sort on the
timestamp key, embedded as insertion sort (which is stable). -/
def sortByTs (l : List (Rec β)) : List (Rec β) := l.insertionSort tsLe

/-- `deduplicated[i] = record` for the first `i` with the matching timestamp:
replace the first record carrying timestamp `r.1` by `r`. -/
def replaceTs (r : Rec β) : List (Rec β) → List (Rec β)
  | [] => []
  | e :: es => if e.1 = r.1 then r :: es else e :: replaceTs r es

/-- One iteration of the deduplication loop of `merge_and_deduplicate`:
a record with an unseen timestamp is appended, a duplicate timestamp
replaces the record already kept for it ("the newer record wins"). -/
def dedupStep (acc : List (Rec β)) (r : Rec β) : List (Rec β) :=
  if acc.any (fun e => e.1 = r.1) then replaceTs r acc else acc ++ [r]

/-- The deduplication loop of `merge_and_deduplicate` (lines 138-152):
walk the combined list, keeping one record per timestamp, the last
occurrence winning. -/
def dedupRecords (l : List (Rec β)) : List (Rec β) := l.foldl dedupStep []

/-- `merge_and_deduplicate(existing_data, new_data, overlap_days)` from
src/data/incremental_data_manager.py.  `overlap_cutoff_ms` is
`last_timestamp - overlap_days` days: the source computes it through UTC
`datetime` arithmetic, which on integer-millisecond timestamps is exactly
this subtraction. -/
def merge_and_deduplicate (existing_data new_data : List (Rec β))
    (overlap_days : Int) : List (Rec β) :=
  if existing_data.isEmpty then sortByTs new_data
  else if new_data.isEmpty then existing_data
  else
    let last_timestamp := tsMax existing_data
    let overlap_cutoff_ms := last_timestamp - overlap_days * 86400000
    let retained_existing := existing_data.filter (fun r => r.1 < overlap_cutoff_ms)
    let combined_data := sortByTs (retained_existing ++ new_data)
    dedupRecords combined_data

/-! ### Basic facts about `occs`, `lastOne`, `dictLookup`, `tsMax` -/

theorem occs_nil (t : Int) : occs (β := β) t [] = [] := rfl

theorem occs_cons (t : Int) (r : Rec β) (l : List (Rec β)) :
    occs t (r :: l) = if r.1 = t then r :: occs t l else occs t l := by
  simp only [occs, List.filter_cons]
  by_cases h : r.1 = t <;> simp [h]

theorem occs_append (t : Int) (l1 l2 : List (Rec β)) :
    occs t (l1 ++ l2) = occs t l1 ++ occs t l2 := by
  simp [occs, List.filter_append]

theorem fst_eq_of_mem_occs {t : Int} {r : Rec β} {l : List (Rec β)}
    (h : r ∈ occs t l) : r.1 = t := by
  simp only [occs, List.mem_filter, decide_eq_true_eq] at h
  exact h.2

theorem mem_of_mem_occs {t : Int} {r : Rec β} {l : List (Rec β)}
    (h : r ∈ occs t l) : r ∈ l := by
  exact List.mem_of_mem_filter h

theorem self_mem_occs {r : Rec β} {l : List (Rec β)} (h : r ∈ l) :
    r ∈ occs r.1 l := by
  simp [occs, List.mem_filter, h]

theorem occs_eq_nil_iff {t : Int} {l : List (Rec β)} :
    occs t l = [] ↔ ∀ r ∈ l, r.1 ≠ t := by
  simp [occs, List.filter_eq_nil_iff]

theorem lastOne_nil : lastOne ([] : List α) = [] := rfl

theorem lastOne_append_right {l2 : List α} (l1 : List α) (h : l2 ≠ []) :
    lastOne (l1 ++ l2) = lastOne l2 := by
  simp [lastOne, List.getLast?_append_of_ne_nil l1 h]

theorem lastOne_append_nil (l : List α) : lastOne (l ++ []) = lastOne l := by
  simp

theorem lastOne_idem (l : List α) : lastOne (lastOne l) = lastOne l := by
  cases h : l.getLast? <;> simp [lastOne, h]

theorem lastOne_eq_nil_iff {l : List α} : lastOne l = [] ↔ l = [] := by
  cases l with
  | nil => simp [lastOne]
  | cons a l =>
    simp only [lastOne]
    cases h : (a :: l).getLast? with
    | none => simp [List.getLast?_eq_none_iff] at h
    | some b => simp

theorem lastOne_singleton (a : α) : lastOne [a] = [a] := rfl

theorem lastOne_concat (l : List α) (a : α) : lastOne (l ++ [a]) = [a] := by
  simp [lastOne, List.getLast?_concat]

/-- `dictLookup` returns the last record of `l` carrying the key. -/
theorem dictLookup_eq_getLast_occs (t : Int) (l : List (Rec β)) :
    dictLookup t l = (occs t l).getLast? := by
  induction l with
  | nil => rfl
  | cons r rs ih =>
    simp only [dictLookup, occs_cons, ih]
    cases hocc : occs t rs with
    | nil => by_cases hr : r.1 = t <;> simp [hr, hocc]
    | cons b bs =>
      have hne : (b :: bs).getLast? ≠ none := by
        cases bs <;> simp [List.getLast?_cons_cons]
      cases hl : (b :: bs).getLast? with
      | none => exact absurd hl hne
      | some v => by_cases hr : r.1 = t <;> simp [hr, hocc, hl]

theorem foldlMax_le_init (xs : List (Rec β)) (a : Int) :
    a ≤ xs.foldl (fun m x => max m x.1) a := by
  induction xs generalizing a with
  | nil => exact le_refl a
  | cons x xs ih => exact le_trans (le_max_left a x.1) (ih (max a x.1))

theorem le_foldlMax_of_mem {xs : List (Rec β)} {x : Rec β} (h : x ∈ xs) (a : Int) :
    x.1 ≤ xs.foldl (fun m x => max m x.1) a := by
  induction xs generalizing a with
  | nil => exact absurd h (List.not_mem_nil x)
  | cons y ys ih =>
    rcases List.mem_cons.1 h with rfl | h'
    · exact le_trans (le_max_right a x.1) (foldlMax_le_init ys (max a x.1))
    · exact ih h' (max a y.1)

theorem foldlMax_cases (xs : List (Rec β)) (a : Int) :
    xs.foldl (fun m x => max m x.1) a = a ∨
      ∃ x ∈ xs, xs.foldl (fun m x => max m x.1) a = x.1 := by
  induction xs generalizing a with
  | nil => exact Or.inl rfl
  | cons y ys ih =>
    rcases ih (max a y.1) with h | ⟨x, hx, h⟩
    · simp only [List.foldl_cons, h]
      rcases max_choice a y.1 with h' | h'
      · exact Or.inl h'
      · exact Or.inr ⟨y, List.mem_cons_self y ys, h'⟩
    · exact Or.inr ⟨x, List.mem_cons_of_mem y hx, h⟩

/-- Every timestamp of a record of `l` is at most `tsMax l`. -/
theorem le_tsMax_of_mem {l : List (Rec β)} {r : Rec β} (h : r ∈ l) :
    r.1 ≤ tsMax l := by
  cases l with
  | nil => exact absurd h (List.not_mem_nil r)
  | cons x xs =>
    rcases List.mem_cons.1 h with rfl | h'
    · exact foldlMax_le_init xs r.1
    · exact le_foldlMax_of_mem h' x.1

/-- For a nonempty list, `tsMax l` is the timestamp of one of its records. -/
theorem tsMax_mem {l : List (Rec β)} (h : l ≠ []) :
    ∃ r ∈ l, r.1 = tsMax l := by
  cases l with
  | nil => exact absurd rfl h
  | cons x xs =>
    rcases foldlMax_cases xs x.1 with h' | ⟨r, hr, h'⟩
    · exact ⟨x, List.mem_cons_self x xs, h'.symm⟩
    · exact ⟨r, List.mem_cons_of_mem x hr, h'.symm⟩

/-! ### Stability of the timestamp sort: `occs` is preserved -/

theorem occs_orderedInsert (t : Int) (a : Rec β) (l : List (Rec β)) :
    occs t (l.orderedInsert tsLe a) =
      if a.1 = t then a :: occs t l else occs t l := by
  induction l with
  | nil => simp [List.orderedInsert, occs_cons]
  | cons b bs ih =>
    simp only [List.orderedInsert]
    by_cases hab : tsLe a b
    · by_cases ha : a.1 = t <;> simp [occs_cons, ha, hab]
    · have hba : b.1 < a.1 := lt_of_not_le hab
      by_cases ha : a.1 = t
      · have hb : ¬ b.1 = t := by
          intro hb; rw [hb, ← ha] at hba; exact lt_irrefl _ hba
        simp [occs_cons, ha, hb, hab, ih]
      · by_cases hb : b.1 = t <;> simp [occs_cons, ha, hb, hab, ih]

theorem occs_sortByTs (t : Int) (l : List (Rec β)) :
    occs t (sortByTs l) = occs t l := by
  induction l with
  | nil => rfl
  | cons a l ih =>
    simp only [sortByTs, List.insertionSort] at *
    rw [occs_orderedInsert, occs_cons, ih]

/-! ### The deduplication loop -/

theorem map_fst_replaceTs (r : Rec β) (l : List (Rec β)) :
    (replaceTs r l).map (·.1) = l.map (·.1) := by
  induction l with
  | nil => rfl
  | cons e es ih =>
    simp only [replaceTs]
    by_cases he : e.1 = r.1
    · simp [he]
    · simp [he, ih]

theorem occs_replaceTs_ne {t : Int} {r : Rec β} (hne : t ≠ r.1) (l : List (Rec β)) :
    occs t (replaceTs r l) = occs t l := by
  induction l with
  | nil => rfl
  | cons e es ih =>
    simp only [replaceTs]
    by_cases he : e.1 = r.1
    · have hr : ¬ r.1 = t := fun h => hne h.symm
      have he' : ¬ e.1 = t := by rw [he]; exact hr
      rw [if_pos he, occs_cons, if_neg hr, occs_cons, if_neg he']
    · rw [if_neg he, occs_cons, occs_cons, ih]

theorem occs_replaceTs_eq {r : Rec β} {l : List (Rec β)}
    (hnd : (l.map (·.1)).Nodup) (hmem : ∃ e ∈ l, e.1 = r.1) :
    occs r.1 (replaceTs r l) = [r] := by
  induction l with
  | nil => simp at hmem
  | cons e es ih =>
    simp only [replaceTs]
    by_cases he : e.1 = r.1
    · have hnotin : e.1 ∉ es.map (·.1) := (List.nodup_cons.1 (by simpa using hnd)).1
      have hocc : occs r.1 es = [] := by
        rw [occs_eq_nil_iff]
        intro x hx hxr
        exact hnotin (by rw [← he] at hxr; exact hxr ▸ List.mem_map_of_mem (·.1) hx)
      rw [if_pos he, occs_cons, if_pos rfl, hocc]
    · have hmem' : ∃ x ∈ es, x.1 = r.1 := by
        rcases hmem with ⟨x, hx, hxr⟩
        rcases List.mem_cons.1 hx with rfl | hx'
        · exact absurd hxr he
        · exact ⟨x, hx', hxr⟩
      rw [if_neg he, occs_cons, if_neg he]
      exact ih (List.nodup_cons.1 (by simpa using hnd)).2 hmem'

theorem dedupRecords_concat (l : List (Rec β)) (r : Rec β) :
    dedupRecords (l ++ [r]) = dedupStep (dedupRecords l) r := by
  simp [dedupRecords, List.foldl_append]

theorem any_key_iff (acc : List (Rec β)) (r : Rec β) :
    (acc.any (fun e => e.1 = r.1)) = true ↔ ∃ e ∈ acc, e.1 = r.1 := by
  simp [List.any_eq_true]

/-- The deduplicated list has pairwise-distinct timestamps. -/
theorem keysNodup_dedupRecords (l : List (Rec β)) :
    ((dedupRecords l).map (·.1)).Nodup := by
  induction l using List.reverseRecOn with
  | nil => simp [dedupRecords]
  | append_singleton l r ih =>
    rw [dedupRecords_concat, dedupStep]
    by_cases hany : (dedupRecords l).any (fun e => e.1 = r.1)
    · rw [if_pos hany, map_fst_replaceTs]; exact ih
    · rw [if_neg hany]
      have hnot : r.1 ∉ (dedupRecords l).map (·.1) := by
        intro hmem
        rcases List.mem_map.1 hmem with ⟨e, he, hee⟩
        exact hany ((any_key_iff _ r).2 ⟨e, he, hee⟩)
      simp only [List.map_append, List.map_cons, List.map_nil]
      exact List.Nodup.append ih (List.nodup_singleton r.1)
        (by simpa [List.disjoint_singleton] using hnot)

/-- The record the dedup loop keeps for timestamp `t` is the *last*
record of the input carrying `t`. -/
theorem occs_dedupRecords (t : Int) (l : List (Rec β)) :
    occs t (dedupRecords l) = lastOne (occs t l) := by
  induction l using List.reverseRecOn with
  | nil => simp [dedupRecords, occs_nil, lastOne]
  | append_singleton l r ih =>
    rw [dedupRecords_concat, dedupStep, occs_append]
    by_cases hrt : r.1 = t
    · have hocc : occs t [r] = [r] := by simp [occs_cons, occs_nil, hrt]
      rw [hocc, lastOne_concat]
      by_cases hany : (dedupRecords l).any (fun e => e.1 = r.1)
      · rw [if_pos hany]
        have := occs_replaceTs_eq (keysNodup_dedupRecords l) ((any_key_iff _ r).1 hany)
        rw [hrt] at this
        exact this
      · rw [if_neg hany, occs_append]
        have hocc0 : occs t (dedupRecords l) = [] := by
          rw [occs_eq_nil_iff]
          intro e he het
          exact hany ((any_key_iff _ r).2 ⟨e, he, by rw [het, hrt]⟩)
        simp [hocc0, occs_cons, occs_nil, hrt]
    · have hocc : occs t [r] = [] := by simp [occs_cons, occs_nil, hrt]
      rw [hocc, List.append_nil]
      by_cases hany : (dedupRecords l).any (fun e => e.1 = r.1)
      · rw [if_pos hany, occs_replaceTs_ne (fun h => hrt h.symm), ih]
      · rw [if_neg hany, occs_append, hocc, List.append_nil, ih]

theorem mem_keys_of_mem_dedupRecords {l : List (Rec β)} {a : Rec β}
    (h : a ∈ dedupRecords l) : ∃ e ∈ l, e.1 = a.1 := by
  have h1 : a ∈ occs a.1 (dedupRecords l) := self_mem_occs h
  rw [occs_dedupRecords] at h1
  have h2 : occs a.1 l ≠ [] := by
    intro hnil
    rw [hnil, lastOne_nil] at h1
    exact List.not_mem_nil a h1
  rcases List.exists_mem_of_ne_nil _ h2 with ⟨e, he⟩
  exact ⟨e, mem_of_mem_occs he, fst_eq_of_mem_occs he⟩

/-- `tsLe`-pairwiseness only depends on the timestamps. -/
theorem pairwise_tsLe_of_map_fst_eq {l1 l2 : List (Rec β)}
    (h : l1.map (·.1) = l2.map (·.1)) (hp : List.Pairwise tsLe l2) :
    List.Pairwise tsLe l1 := by
  have h2 : List.Pairwise (fun a b : Int => a ≤ b) (l2.map (·.1)) :=
    (@List.pairwise_map (Rec β) Int (fun x => x.1) (fun a b => a ≤ b) l2).2 hp
  rw [← h] at h2
  exact (@List.pairwise_map (Rec β) Int (fun x => x.1) (fun a b => a ≤ b) l1).1 h2

/-- Deduplication preserves sortedness by timestamp. -/
theorem sorted_dedupRecords {l : List (Rec β)} (hs : List.Sorted tsLe l) :
    List.Sorted tsLe (dedupRecords l) := by
  induction l using List.reverseRecOn with
  | nil => simp [dedupRecords, List.Sorted]
  | append_singleton l r ih =>
    have hsl : List.Sorted tsLe l := hs.sublist (List.sublist_append_left l [r])
    have hbound : ∀ a ∈ l, tsLe a r := by
      intro a ha
      have := (List.pairwise_append.1 hs).2.2
      exact this a ha r (List.mem_singleton_self r)
    rw [dedupRecords_concat, dedupStep]
    by_cases hany : (dedupRecords l).any (fun e => e.1 = r.1)
    · rw [if_pos hany]
      exact pairwise_tsLe_of_map_fst_eq (map_fst_replaceTs r _) (ih hsl)
    · rw [if_neg hany]
      rw [List.Sorted, List.pairwise_append]
      refine ⟨ih hsl, List.pairwise_singleton _ r, ?_⟩
      intro a ha b hb
      rw [List.mem_singleton] at hb
      subst hb
      rcases mem_keys_of_mem_dedupRecords ha with ⟨e, he, hee⟩
      have := hbound e he
      unfold tsLe at *
      rw [← hee]
      exact this

/-! ### Strictly time-ordered lists and extensionality by `occs` -/

/-- Strict chronological order on timestamps. -/
abbrev StrictByTs (l : List (Rec β)) : Prop :=
  l.Pairwise (fun a b => a.1 < b.1)

theorem strictByTs_of_sorted_nodup {l : List (Rec β)}
    (hs : List.Sorted tsLe l) (hnd : (l.map (·.1)).Nodup) : StrictByTs l := by
  have hne : l.Pairwise (fun a b : Rec β => a.1 ≠ b.1) :=
    (@List.pairwise_map (Rec β) Int (fun x => x.1) (fun a b => a ≠ b) l).1 hnd
  refine (hs.and hne).imp ?_
  rintro a b ⟨hab, hne'⟩
  exact lt_of_le_of_ne hab hne'

/-- The output of the merge path (sort then dedup) is strictly time-ordered. -/
theorem strictByTs_dedup_sort (l : List (Rec β)) :
    StrictByTs (dedupRecords (sortByTs l)) :=
  strictByTs_of_sorted_nodup
    (sorted_dedupRecords (List.sorted_insertionSort tsLe l))
    (keysNodup_dedupRecords _)

/-- In a strictly time-ordered list there is at most one record per
timestamp, and in particular none in the tail sharing the head's. -/
theorem occs_eq_nil_of_strict_tail {a : Rec β} {l : List (Rec β)}
    (h : ∀ b ∈ l, a.1 < b.1) : occs a.1 l = [] := by
  rw [occs_eq_nil_iff]
  intro r hr hra
  exact absurd hra (ne_of_gt (h r hr))

/-- Two strictly time-ordered lists with the same records at every
timestamp are equal. -/
theorem eq_of_occs_ext {l1 l2 : List (Rec β)}
    (h1 : StrictByTs l1) (h2 : StrictByTs l2)
    (h : ∀ t, occs t l1 = occs t l2) : l1 = l2 := by
  induction l1 generalizing l2 with
  | nil =>
    cases l2 with
    | nil => rfl
    | cons b l2' =>
      have := h b.1
      rw [occs_nil, occs_cons, if_pos rfl] at this
      exact absurd this.symm (List.cons_ne_nil _ _)
  | cons a l1' ih =>
    cases l2 with
    | nil =>
      have := h a.1
      rw [occs_nil, occs_cons, if_pos rfl] at this
      exact absurd this (List.cons_ne_nil _ _)
    | cons b l2' =>
      have ha1 : occs a.1 (a :: l1') = [a] := by
        rw [occs_cons, if_pos rfl,
          occs_eq_nil_of_strict_tail (fun r hr => List.rel_of_pairwise_cons h1 hr)]
      have hb2 : occs b.1 (b :: l2') = [b] := by
        rw [occs_cons, if_pos rfl,
          occs_eq_nil_of_strict_tail (fun r hr => List.rel_of_pairwise_cons h2 hr)]
      have hab : a = b := by
        by_cases hk : b.1 = a.1
        · have := (h a.1).trans (by rw [occs_cons, if_pos hk])
          rw [ha1] at this
          cases hocc : occs a.1 l2' with
          | nil => rw [hocc] at this; exact (List.cons.injEq _ _ _ _ ▸ this).1.symm ▸ rfl
          | cons c cs =>
            rw [hocc] at this
            have hc : c ∈ occs a.1 l2' := by rw [hocc]; exact List.mem_cons_self c cs
            have hbc := List.rel_of_pairwise_cons h2 (mem_of_mem_occs hc)
            have := fst_eq_of_mem_occs hc
            rw [this, hk] at hbc
            exact absurd hbc (lt_irrefl _)
        · have hone := (h a.1).symm
          rw [ha1, occs_cons, if_neg hk] at hone
          have ha_mem : a ∈ occs a.1 l2' := by rw [hone]; exact List.mem_singleton_self a
          have hlt : b.1 < a.1 := by
            have := List.rel_of_pairwise_cons h2 (mem_of_mem_occs ha_mem)
            exact this
          have hone' := h b.1
          rw [hb2, occs_cons] at hone'
          have hkb : ¬ a.1 = b.1 := fun hh => hk hh.symm
          rw [if_neg hkb] at hone'
          have hb_mem : b ∈ occs b.1 l1' := by rw [hone']; exact List.mem_singleton_self b
          have hlt' : a.1 < b.1 := List.rel_of_pairwise_cons h1 (mem_of_mem_occs hb_mem)
          exact absurd (lt_trans hlt hlt') (lt_irrefl _)
      subst hab
      have htail : ∀ t, occs t l1' = occs t l2' := by
        intro t
        by_cases ht : a.1 = t
        · subst ht
          rw [occs_eq_nil_of_strict_tail (fun r hr => List.rel_of_pairwise_cons h1 hr),
            occs_eq_nil_of_strict_tail (fun r hr => List.rel_of_pairwise_cons h2 hr)]
        · have := h t
          rw [occs_cons, if_neg ht, occs_cons, if_neg ht] at this
          exact this
      rw [ih (List.pairwise_cons.1 h1).2 (List.pairwise_cons.1 h2).2 htail]

/-! ### Characterization of `merge_and_deduplicate` -/

theorem occs_filter (t : Int) (q : Rec β → Bool) (l : List (Rec β)) :
    occs t (l.filter q) = (occs t l).filter q := by
  simp only [occs, List.filter_filter]
  exact List.filter_congr (fun a _ => by rw [Bool.and_comm])

theorem occs_filter_lt (t c : Int) (l : List (Rec β)) :
    occs t (l.filter (fun r => r.1 < c)) = if t < c then occs t l else [] := by
  rw [occs_filter]
  by_cases htc : t < c
  · rw [if_pos htc]
    exact List.filter_eq_self.2 fun r hr => by
      simp [fst_eq_of_mem_occs hr, htc]
  · rw [if_neg htc]
    exact List.filter_eq_nil_iff.2 fun r hr => by
      simp [fst_eq_of_mem_occs hr, htc]

/-- What the merge keeps at each timestamp: the last record among
(retained existing records, then all fresh records) carrying it. -/
theorem occs_merge_and_deduplicate (E F : List (Rec β)) (d : Int)
    (hE : E ≠ []) (hF : F ≠ []) (t : Int) :
    occs t (merge_and_deduplicate E F d) =
      lastOne (occs t (E.filter (fun r => r.1 < tsMax E - d * 86400000)) ++ occs t F) := by
  rw [merge_and_deduplicate, if_neg (by simpa using hE), if_neg (by simpa using hF)]
  rw [occs_dedupRecords, occs_sortByTs, occs_append]

theorem lastOne_subset {l : List α} {x : α} (h : x ∈ lastOne l) : x ∈ l := by
  unfold lastOne at h
  cases hl : l.getLast? with
  | none => rw [hl] at h; exact absurd h (List.not_mem_nil x)
  | some a =>
    rw [hl] at h
    rw [List.mem_singleton.1 h]
    exact List.mem_of_mem_getLast? hl

/-- Both merge branches with nonempty inputs produce a strictly
time-ordered output. -/
theorem strictByTs_merge (E F : List (Rec β)) (d : Int)
    (hE : E ≠ []) (hF : F ≠ []) :
    StrictByTs (merge_and_deduplicate E F d) := by
  rw [merge_and_deduplicate, if_neg (by simpa using hE), if_neg (by simpa using hF)]
  exact strictByTs_dedup_sort _

theorem merge_ne_nil (E F : List (Rec β)) (d : Int)
    (hE : E ≠ []) (hF : F ≠ []) : merge_and_deduplicate E F d ≠ [] := by
  rcases List.exists_mem_of_ne_nil F hF with ⟨rf, hrf⟩
  intro hnil
  have h := occs_merge_and_deduplicate E F d hE hF rf.1
  rw [hnil, occs_nil] at h
  have hFne : occs rf.1 F ≠ [] := by
    intro h0
    have := self_mem_occs hrf
    rw [h0] at this
    exact List.not_mem_nil rf this
  rw [lastOne_append_right _ hFne] at h
  exact hFne (lastOne_eq_nil_iff.1 h.symm)

/-- With a fresh batch reaching at least as far as the existing data,
the merged output's newest timestamp is the fresh batch's newest. -/
theorem tsMax_merge (E F : List (Rec β)) (d : Int)
    (hE : E ≠ []) (hF : F ≠ []) (hd : 0 ≤ d) (hEF : tsMax E ≤ tsMax F) :
    tsMax (merge_and_deduplicate E F d) = tsMax F := by
  have hub : ∀ r ∈ merge_and_deduplicate E F d, r.1 ≤ tsMax F := by
    intro r hr
    have h := occs_merge_and_deduplicate E F d hE hF r.1
    have hmem := lastOne_subset (h ▸ self_mem_occs hr)
    rcases List.mem_append.1 hmem with hl | hr'
    · have hflt := List.mem_filter.1 (mem_of_mem_occs hl)
      have : r.1 < tsMax E - d * 86400000 := by simpa using hflt.2
      have hE0 : (0:Int) ≤ d * 86400000 := mul_nonneg hd (by norm_num)
      omega
    · exact le_tsMax_of_mem (mem_of_mem_occs hr')
  have hmem : ∃ r ∈ merge_and_deduplicate E F d, r.1 = tsMax F := by
    rcases tsMax_mem hF with ⟨rf, hrf, hrf1⟩
    have hFne : occs (tsMax F) F ≠ [] := by
      intro h0
      have := self_mem_occs hrf
      rw [hrf1, h0] at this
      exact List.not_mem_nil rf this
    have h := occs_merge_and_deduplicate E F d hE hF (tsMax F)
    rw [lastOne_append_right _ hFne] at h
    have hne : occs (tsMax F) (merge_and_deduplicate E F d) ≠ [] := by
      rw [h]
      exact fun h0 => hFne (lastOne_eq_nil_iff.1 h0)
    rcases List.exists_mem_of_ne_nil _ hne with ⟨r, hr⟩
    exact ⟨r, mem_of_mem_occs hr, fst_eq_of_mem_occs hr⟩
  rcases hmem with ⟨r, hr, hr1⟩
  have hMne : merge_and_deduplicate E F d ≠ [] := by
    intro h0; rw [h0] at hr; exact List.not_mem_nil r hr
  rcases tsMax_mem hMne with ⟨rm, hrm, hrm1⟩
  exact le_antisymm (hrm1 ▸ hub rm hrm) (hr1 ▸ le_tsMax_of_mem hr)

/-- **C2, amended.**  Re-merging the same fresh batch is the identity
*provided the fresh batch reaches at least as far forward as the
existing data* (`tsMax F ≥ tsMax E`, with nonempty inputs and a
nonnegative overlap).  Without that proviso the second merge recomputes
its cutoff from the (smaller) new maximum and can drop further records,
see the counterexample. -/
theorem merge_idempotent_of_fresh_covers (E F : List (Rec β)) (d : Int)
    (hE : E ≠ []) (hF : F ≠ []) (hd : 0 ≤ d) (hEF : tsMax E ≤ tsMax F) :
    merge_and_deduplicate (merge_and_deduplicate E F d) F d =
      merge_and_deduplicate E F d := by
  have hM1ne : merge_and_deduplicate E F d ≠ [] := merge_ne_nil E F d hE hF
  apply eq_of_occs_ext (strictByTs_merge _ F d hM1ne hF) (strictByTs_merge E F d hE hF)
  intro t
  rw [occs_merge_and_deduplicate _ F d hM1ne hF t,
    occs_merge_and_deduplicate E F d hE hF t, tsMax_merge E F d hE hF hd hEF]
  cases hocF : occs t F with
  | cons g gs =>
    rw [lastOne_append_right _ (by simp), lastOne_append_right _ (by simp)]
  | nil =>
    rw [List.append_nil, List.append_nil, occs_filter_lt]
    by_cases htc : t < tsMax F - d * 86400000
    · rw [if_pos htc, occs_merge_and_deduplicate E F d hE hF t, hocF,
        List.append_nil, lastOne_idem]
    · rw [if_neg htc, lastOne_nil]
      have h1 : occs t (E.filter (fun r => r.1 < tsMax E - d * 86400000)) = [] := by
        rw [occs_filter_lt, if_neg (fun h => htc (by omega))]
      rw [h1, lastOne_nil]

/-- **C2, counterexample.**  The merge is *not* idempotent as claimed:
with existing data `A = [[0, 1], [4 days, 2]]` and a fresh batch
`B = [[1 day, 5]]` (default overlap of 3 days), the first merge keeps
`[[0, 1], [1 day, 5]]` but re-merging `B` drops the record at 0, because
the cutoff is recomputed from the new, smaller maximum timestamp. -/
theorem merge_idempotence_counterexample :
    merge_and_deduplicate
        (merge_and_deduplicate [((0 : Int), (1 : ℚ)), (345600000, 2)] [(86400000, 5)] 3)
        [(86400000, 5)] 3
      ≠ merge_and_deduplicate [((0 : Int), (1 : ℚ)), (345600000, 2)] [(86400000, 5)] 3 := by
  decide

/-- Witness for the amended C2 theorem at a concrete input. -/
theorem merge_idempotent_of_fresh_covers_witness :
    ([((0 : Int), (1 : ℚ)), (86400000, 2)] : List (Rec ℚ)) ≠ [] ∧
    ([((86400000 : Int), (3 : ℚ))] : List (Rec ℚ)) ≠ [] ∧
    (0 : Int) ≤ 3 ∧
    tsMax [((0 : Int), (1 : ℚ)), (86400000, 2)] ≤ tsMax [((86400000 : Int), (3 : ℚ))] ∧
    merge_and_deduplicate
        (merge_and_deduplicate [((0 : Int), (1 : ℚ)), (86400000, 2)] [(86400000, 3)] 3)
        [(86400000, 3)] 3
      = merge_and_deduplicate [((0 : Int), (1 : ℚ)), (86400000, 2)] [(86400000, 3)] 3 :=
  ⟨by decide, by decide, by decide, by decide,
    merge_idempotent_of_fresh_covers _ _ 3 (by decide) (by decide) (by decide) (by decide)⟩

/-- **C5.**  Overlap replacement: if the existing data ends at day `D`
and carries `v` at day `D-1`, and the fresh batch's records at day `D-1`
are exactly one record with value `v'`, then (for overlap ≥ 1 day) the
merged result at day `D-1` is the fresh value `v'`. -/
theorem merge_overlap_replacement (E F : List (Rec β)) (d D : Int) (v v' : β)
    (hmem : (D - 86400000, v) ∈ E) (hD : tsMax E = D)
    (hocc : occs (D - 86400000) F = [(D - 86400000, v')])
    (hvv : v ≠ v') (hd : 1 ≤ d) :
    occs (D - 86400000) (merge_and_deduplicate E F d) = [(D - 86400000, v')] := by
  have hE : E ≠ [] := by
    intro h; rw [h] at hmem; exact List.not_mem_nil _ hmem
  have hF : F ≠ [] := by
    intro h
    rw [h, occs_nil] at hocc
    exact (List.cons_ne_nil _ _) hocc.symm
  rw [occs_merge_and_deduplicate E F d hE hF, hocc, lastOne_concat]

/-- Witness for C5 at a concrete input: existing data ends at day 4
with value 7 at day 3; the fresh batch carries 9 at day 3; the merge
(overlap 3 days) returns 9 at day 3. -/
theorem merge_overlap_replacement_witness :
    ((345600000 - 86400000 : Int), (7 : ℚ)) ∈
        [((259200000 : Int), (7 : ℚ)), (345600000, 8)] ∧
    tsMax [((259200000 : Int), (7 : ℚ)), (345600000, 8)] = 345600000 ∧
    occs (345600000 - 86400000) [((259200000 : Int), (9 : ℚ))]
      = [((345600000 - 86400000 : Int), (9 : ℚ))] ∧
    (7 : ℚ) ≠ 9 ∧ (1 : Int) ≤ 3 ∧
    occs (345600000 - 86400000)
        (merge_and_deduplicate [((259200000 : Int), (7 : ℚ)), (345600000, 8)]
          [(259200000, 9)] 3)
      = [((345600000 - 86400000 : Int), (9 : ℚ))] :=
  ⟨by decide, by decide, by decide, by decide, by decide,
    merge_overlap_replacement _ _ 3 345600000 7 9 (by decide) (by decide) (by decide)
      (by decide) (by decide)⟩

/-! ### Time standardization (src/data/time_transformer.py)

`standardize_to_daily_utc` truncates each timestamp to the start of its
UTC calendar day (through `datetime.fromtimestamp(...,
tz=timezone.utc).replace(hour=0, minute=0, second=0, microsecond=0)`,
which on integer inputs is flooring division by the day length),
dropping later points that fall on an already-seen day, then sorts and
fills gaps with null-valued points.  Only the 2-element
`[timestamp, value]` record branch is embedded; the 6-element branch
differs only in per-record validation and shares the dedup/sort/fill
logic (the gap filler below is generic in the payload so that the
6-element null record is covered too). -/

/-- Timestamp normalization: the source treats values above
`1000000000000` as milliseconds and others as seconds, and truncates to
the UTC day start, returned in milliseconds. -/
def normTs (t : Int) : Int :=
  if 1000000000000 < t then 86400000 * (t.fdiv 86400000)
  else 86400000 * (t.fdiv 86400)

/-- The per-record loop of `standardize_to_daily_utc` (2-element branch):
a record whose day is already in `seen_dates` is dropped; otherwise the
day is marked seen *before* value validation, and the record is kept
only if its value is non-null. -/
def dedupDaysAux : List (Int × Option ℚ) → List Int → List (Int × ℚ)
  | [], _ => []
  | (t, v) :: rest, seen =>
    let nd := normTs t
    if nd ∈ seen then dedupDaysAux rest seen
    else
      match v with
      | some q => (nd, q) :: dedupDaysAux rest (nd :: seen)
      | none => dedupDaysAux rest (nd :: seen)

def dedupDays (raw : List (Int × Option ℚ)) : List (Int × ℚ) :=
  dedupDaysAux raw []

/-- Number of daily steps of the `while current_date <= end_date` loop
of `create_continuous_index_with_nan`, stepping one day at a time from
`start`. -/
def gridLen (start stop : Int) : ℕ :=
  if start ≤ stop then ((stop - start).fdiv 86400000).toNat + 1 else 0

/-- `create_continuous_index_with_nan(data, data_structure)`: walk the
daily grid from the first to the last timestamp, emitting the stored
record for present days and a null record for missing ones.  The null
record (`[ts, None]` or `[ts] + [None]*5`, depending on
`data_structure`) is abstracted as the `nullv` payload. -/
def create_continuous_index_with_nan (data : List (Rec β)) (nullv : β) :
    List (Rec β) :=
  if data.length < 2 then data
  else
    (List.range (gridLen (data.headD (0, nullv)).1 (data.getLastD (0, nullv)).1)).map
      (fun (k : ℕ) =>
        match dictLookup ((data.headD (0, nullv)).1 + 86400000 * (k : Int)) data with
        | some r => r
        | none => ((data.headD (0, nullv)).1 + 86400000 * (k : Int), nullv))

/-- `standardize_to_daily_utc(raw_data)` for 2-element records: dedup by
day in input order, sort chronologically, then (for more than one point)
fill to a continuous daily grid with nulls. -/
def standardize_to_daily_utc (raw : List (Int × Option ℚ)) :
    List (Int × Option ℚ) :=
  if 1 < (sortByTs ((dedupDays raw).map (fun r => (r.1, some r.2)))).length then
    create_continuous_index_with_nan
      (sortByTs ((dedupDays raw).map (fun r => (r.1, some r.2)))) none
  else sortByTs ((dedupDays raw).map (fun r => (r.1, some r.2)))

theorem dvd_normTs (t : Int) : (86400000 : Int) ∣ normTs t := by
  unfold normTs
  by_cases h : 1000000000000 < t <;> simp [h, Dvd.intro]

theorem dictLookup_fst {t : Int} {l : List (Rec β)} {r : Rec β}
    (h : dictLookup t l = some r) : r.1 = t := by
  induction l with
  | nil => exact absurd h (by simp [dictLookup])
  | cons e es ih =>
    rw [dictLookup] at h
    cases he : dictLookup t es with
    | some v => rw [he] at h; exact ih (he.trans (by injection h with h'; rw [h']))
    | none =>
      rw [he] at h
      by_cases het : e.1 = t
      · rw [if_pos het] at h; injection h with h'; rw [← h']; exact het
      · rw [if_neg het] at h; exact absurd h (by simp)

theorem dictLookup_mem {t : Int} {l : List (Rec β)} {r : Rec β}
    (h : dictLookup t l = some r) : r ∈ l := by
  rw [dictLookup_eq_getLast_occs] at h
  exact mem_of_mem_occs (List.mem_of_mem_getLast? h)

theorem occs_dedupDaysAux_of_mem_seen {D : Int} :
    ∀ (raw : List (Int × Option ℚ)) (seen : List Int), D ∈ seen →
      occs D (dedupDaysAux raw seen) = []
  | [], _, _ => rfl
  | (t, v) :: rest, seen, hD => by
    simp only [dedupDaysAux]
    by_cases hnd : normTs t ∈ seen
    · rw [if_pos hnd]
      exact occs_dedupDaysAux_of_mem_seen rest seen hD
    · rw [if_neg hnd]
      have hne : ¬ normTs t = D := fun h => hnd (h ▸ hD)
      cases v with
      | some q =>
        rw [occs_cons, if_neg hne]
        exact occs_dedupDaysAux_of_mem_seen rest _ (List.mem_cons_of_mem _ hD)
      | none =>
        exact occs_dedupDaysAux_of_mem_seen rest _ (List.mem_cons_of_mem _ hD)

/-- The record the day-dedup keeps for day `D` is determined by the
*first* raw record (in input order) that truncates to `D`: it is kept
when its value is non-null. -/
theorem occs_dedupDaysAux_find {D t : Int} {q : ℚ} :
    ∀ (raw : List (Int × Option ℚ)) (seen : List Int), D ∉ seen →
      raw.find? (fun r => normTs r.1 = D) = some (t, some q) →
      occs D (dedupDaysAux raw seen) = [(D, q)]
  | [], _, _, hfind => by simp at hfind
  | (t0, v0) :: rest, seen, hD, hfind => by
    simp only [dedupDaysAux]
    by_cases hpred : normTs t0 = D
    · rw [List.find?_cons] at hfind
      simp [hpred] at hfind
      have hv : v0 = some q := hfind.2
      rw [if_neg (hpred ▸ hD)]
      rw [hv]
      rw [occs_cons, if_pos hpred, hpred,
        occs_dedupDaysAux_of_mem_seen rest _ (hpred ▸ List.mem_cons_self _ _)]
    · rw [List.find?_cons] at hfind
      simp [hpred] at hfind
      by_cases hnd : normTs t0 ∈ seen
      · rw [if_pos hnd]
        exact occs_dedupDaysAux_find rest seen hD hfind
      · rw [if_neg hnd]
        have hD' : D ∉ normTs t0 :: seen := by
          intro h
          rcases List.mem_cons.1 h with h' | h'
          · exact hpred h'.symm
          · exact hD h'
        cases v0 with
        | some q0 =>
          rw [occs_cons, if_neg hpred]
          exact occs_dedupDaysAux_find rest _ hD' hfind
        | none => exact occs_dedupDaysAux_find rest _ hD' hfind

theorem keys_dedupDaysAux_normTs :
    ∀ (raw : List (Int × Option ℚ)) (seen : List Int),
      ∀ y ∈ dedupDaysAux raw seen, ∃ t', y.1 = normTs t'
  | [], _, y, hy => absurd hy (List.not_mem_nil y)
  | (t0, v0) :: rest, seen, y, hy => by
    simp only [dedupDaysAux] at hy
    by_cases hnd : normTs t0 ∈ seen
    · rw [if_pos hnd] at hy
      exact keys_dedupDaysAux_normTs rest seen y hy
    · rw [if_neg hnd] at hy
      cases v0 with
      | some q0 =>
        rcases List.mem_cons.1 hy with rfl | hy'
        · exact ⟨t0, rfl⟩
        · exact keys_dedupDaysAux_normTs rest _ y hy'
      | none => exact keys_dedupDaysAux_normTs rest _ y hy

/-- `occs` commutes with the value-only lift into `Option`. -/
theorem occs_map_some (D : Int) (l : List (Rec ℚ)) :
    occs D (l.map (fun x => (x.1, some x.2))) =
      (occs D l).map (fun x => (x.1, some x.2)) := by
  induction l with
  | nil => rfl
  | cons a l ih =>
    rw [List.map_cons, occs_cons, occs_cons]
    by_cases ha : a.1 = D
    · rw [if_pos ha, if_pos ha, List.map_cons, ih]
    · rw [if_neg ha, if_neg ha, ih]

theorem occs_range_map {D : Int} (f : ℕ → Rec β) :
    ∀ (n : ℕ) (k0 : ℕ), (∀ k, (f k).1 = D ↔ k = k0) → k0 < n →
      occs D ((List.range n).map f) = [f k0]
  | 0, k0, _, hk => absurd hk (Nat.not_lt_zero k0)
  | Nat.succ m, k0, hf, hk => by
    rw [List.range_succ, List.map_append, occs_append, List.map_singleton]
    by_cases hm : k0 = m
    · have hleft : occs D ((List.range m).map f) = [] := by
        rw [occs_eq_nil_iff]
        intro r hr
        rcases List.mem_map.1 hr with ⟨k, hkm, rfl⟩
        rw [List.mem_range] at hkm
        intro hfk
        rw [(hf k).1 hfk, hm] at hkm
        exact lt_irrefl m hkm
      have hright : occs D [f m] = [f m] := by
        rw [occs_cons, if_pos ((hf m).2 hm.symm), occs_nil]
      rw [hleft, hright, hm]
      rfl
    · have hk' : k0 < m := lt_of_le_of_ne (Nat.lt_succ_iff.1 hk) hm
      have hright : occs D [f m] = [] := by
        rw [occs_cons, if_neg (fun h => hm ((hf m).1 h).symm), occs_nil]
      rw [hright, List.append_nil]
      exact occs_range_map f m k0 hf hk'

theorem headD_fst_le_of_sorted {l : List (Rec β)} (hs : List.Sorted tsLe l)
    {r : Rec β} (hr : r ∈ l) (dflt : Rec β) : (l.headD dflt).1 ≤ r.1 := by
  cases l with
  | nil => exact absurd hr (List.not_mem_nil r)
  | cons a tl =>
    rcases List.mem_cons.1 hr with rfl | hr'
    · exact le_refl _
    · exact List.rel_of_pairwise_cons hs hr'

theorem le_getLastD_fst_of_sorted :
    ∀ {l : List (Rec β)}, List.Sorted tsLe l →
      ∀ {r : Rec β}, r ∈ l → ∀ (dflt : Rec β), r.1 ≤ (l.getLastD dflt).1
  | [], _, r, hr, _ => absurd hr (List.not_mem_nil r)
  | a :: tl, hs, r, hr, dflt => by
    rw [List.getLastD_cons]
    rcases List.mem_cons.1 hr with rfl | hr'
    · cases tl with
      | nil => exact le_refl _
      | cons b tl' =>
        have hab : tsLe r b := List.rel_of_pairwise_cons hs (List.mem_cons_self b tl')
        exact le_trans hab
          (le_getLastD_fst_of_sorted (List.pairwise_cons.1 hs).2
            (List.mem_cons_self b tl') r)
    · exact le_getLastD_fst_of_sorted (List.pairwise_cons.1 hs).2 hr' a

/-- The grid walk of the gap filler, at a day carried by exactly one
stored record, reproduces that record.  `start`, `stop` and `D` are
day-aligned (`86400000 * c`) and `start ≤ D ≤ stop`. -/
theorem occs_grid_map (data : List (Rec β)) (nullv : β) (start stop D : Int)
    (r : Rec β) (hocc : occs D data = [r]) (cb cs cd : Int)
    (hcb : start = 86400000 * cb) (hcs : stop = 86400000 * cs)
    (hcd : D = 86400000 * cd) (h1 : cb ≤ cd) (h2 : cd ≤ cs) :
    occs D ((List.range (gridLen start stop)).map (fun (k : ℕ) =>
        match dictLookup (start + 86400000 * (k : Int)) data with
        | some x => x
        | none => (start + 86400000 * (k : Int), nullv))) = [r] := by
  have hstst : start ≤ stop := by
    rw [hcb, hcs]
    exact mul_le_mul_of_nonneg_left (le_trans h1 h2) (by norm_num)
  have hgrid : gridLen start stop = (cs - cb).toNat + 1 := by
    rw [gridLen, if_pos hstst, hcb, hcs, ← mul_sub, Int.mul_fdiv_cancel_left _ (by norm_num)]
  have hm_nonneg : (0 : Int) ≤ cd - cb := by omega
  have hk0cast : (((cd - cb).toNat : ℕ) : Int) = cd - cb := Int.toNat_of_nonneg hm_nonneg
  have hfst : ∀ k : ℕ,
      ((match dictLookup (start + 86400000 * (k : Int)) data with
        | some x => x
        | none => (start + 86400000 * (k : Int), nullv)) : Rec β).1
        = start + 86400000 * (k : Int) := by
    intro k
    cases hdl : dictLookup (start + 86400000 * (k : Int)) data with
    | some x => simp only [hdl]; exact dictLookup_fst hdl
    | none => simp only [hdl]
  have hiff : ∀ k : ℕ,
      ((match dictLookup (start + 86400000 * (k : Int)) data with
        | some x => x
        | none => (start + 86400000 * (k : Int), nullv)) : Rec β).1 = D
        ↔ k = (cd - cb).toNat := by
    intro k
    rw [hfst k]
    constructor
    · intro h
      rw [hcb, hcd] at h
      have hkk : (k : Int) = cd - cb := by
        have h8 : (86400000 : Int) * (k : Int) = 86400000 * (cd - cb) := by ring_nf; ring_nf at h; omega
        exact mul_left_cancel₀ (by norm_num : (86400000:Int) ≠ 0) h8
      have : (k : Int) = (((cd - cb).toNat : ℕ) : Int) := by rw [hkk, hk0cast]
      exact Int.ofNat_inj.1 this
    · intro h
      rw [h, hk0cast, hcb, hcd]
      ring
  have hk0lt : (cd - cb).toNat < (cs - cb).toNat + 1 := by
    have := Int.toNat_le_toNat (show cd - cb ≤ cs - cb by omega)
    omega
  rw [hgrid, occs_range_map _ _ _ hiff hk0lt]
  have harg : start + 86400000 * (((cd - cb).toNat : ℕ) : Int) = D := by
    rw [hk0cast, hcb, hcd]; ring
  rw [harg, dictLookup_eq_getLast_occs, hocc]
  simp

/-- At a day carried by exactly one record of its (sorted, day-aligned)
input, the gap filler reproduces exactly that record. -/
theorem occs_create_continuous_of_occs {data : List (Rec β)} {nullv : β}
    {D : Int} {r : Rec β}
    (hs : List.Sorted tsLe data)
    (hdvd : ∀ x ∈ data, (86400000 : Int) ∣ x.1)
    (hocc : occs D data = [r]) :
    occs D (create_continuous_index_with_nan data nullv) = [r] := by
  have hrmem : r ∈ data := mem_of_mem_occs (hocc ▸ List.mem_singleton_self r)
  have hrD : r.1 = D := fst_eq_of_mem_occs (hocc ▸ List.mem_singleton_self r)
  rw [create_continuous_index_with_nan]
  by_cases hlen : data.length < 2
  · rw [if_pos hlen]; exact hocc
  · rw [if_neg hlen]
    have hne : data ≠ [] := by
      intro h; rw [h] at hlen; exact hlen (by simp)
    have hheadmem : data.headD (0, nullv) ∈ data := by
      cases data with
      | nil => exact absurd rfl hne
      | cons a tl => exact List.mem_cons_self a tl
    have hlastmem : data.getLastD (0, nullv) ∈ data := by
      cases data with
      | nil => exact absurd rfl hne
      | cons a tl =>
        rw [List.getLastD_eq_getLast?, List.getLast?_eq_getLast (a :: tl) (by simp)]
        exact List.getLast_mem _
    rcases hdvd _ hheadmem with ⟨cb, hcb⟩
    rcases hdvd _ hlastmem with ⟨cs, hcs⟩
    rcases hdvd r hrmem with ⟨cd, hcd⟩
    have hstartD : (data.headD (0, nullv)).1 ≤ D :=
      hrD ▸ headD_fst_le_of_sorted hs hrmem (0, nullv)
    have hDstop : D ≤ (data.getLastD (0, nullv)).1 :=
      hrD ▸ le_getLastD_fst_of_sorted hs hrmem (0, nullv)
    have hcd' : D = 86400000 * cd := hrD ▸ hcd
    refine occs_grid_map data nullv _ _ D r hocc cb cs cd hcb hcs hcd' ?_ ?_
    · have h8 : (86400000 : Int) * cb ≤ 86400000 * cd := by
        rw [← hcb, ← hcd']; exact hstartD
      exact le_of_mul_le_mul_left h8 (by norm_num)
    · have h8 : (86400000 : Int) * cd ≤ 86400000 * cs := by
        rw [← hcd', ← hcs]; exact hDstop
      exact le_of_mul_le_mul_left h8 (by norm_num)

theorem chain'_of_length_le_one {γ : Type} {l : List γ} {R : γ → γ → Prop}
    (h : l.length ≤ 1) : List.Chain' R l := by
  cases l with
  | nil => exact List.chain'_nil
  | cons a tl =>
    cases tl with
    | nil => exact List.chain'_singleton a
    | cons b tl' => simp at h

/-- Every output point of the gap filler has timestamp
`start + 86400000 * k` for its grid position `k`. -/
theorem create_continuous_elt_fst (data : List (Rec β)) (nullv : β)
    (start : Int) (k : ℕ) :
    ((match dictLookup (start + 86400000 * (k : Int)) data with
      | some x => x
      | none => (start + 86400000 * (k : Int), nullv)) : Rec β).1
      = start + 86400000 * (k : Int) := by
  cases hdl : dictLookup (start + 86400000 * (k : Int)) data with
  | some x => simp only [hdl]; exact dictLookup_fst hdl
  | none => simp only [hdl]

/-- Consecutive points of the gap filler's output are exactly one day
apart (its grid steps by `86400000`). -/
theorem chain'_create_continuous (data : List (Rec β)) (nullv : β)
    (hlen : ¬ data.length < 2) :
    List.Chain' (fun a b : Rec β => b.1 - a.1 = 86400000)
      (create_continuous_index_with_nan data nullv) := by
  rw [create_continuous_index_with_nan, if_neg hlen]
  rw [List.chain'_iff_get]
  intro i hi
  rw [List.get_eq_getElem, List.get_eq_getElem, List.getElem_map, List.getElem_map,
    List.getElem_range, List.getElem_range, create_continuous_elt_fst,
    create_continuous_elt_fst]
  push_cast
  ring

/-- Every output point of the gap filler is a stored record or a
null-valued gap point. -/
theorem mem_create_continuous {data : List (Rec β)} {nullv : β} {r : Rec β}
    (h : r ∈ create_continuous_index_with_nan data nullv) :
    r ∈ data ∨ r.2 = nullv := by
  rw [create_continuous_index_with_nan] at h
  by_cases hlen : data.length < 2
  · rw [if_pos hlen] at h; exact Or.inl h
  · rw [if_neg hlen] at h
    rcases List.mem_map.1 h with ⟨k, _, rfl⟩
    cases hdl : dictLookup ((data.headD (0, nullv)).1 + 86400000 * (k : Int)) data with
    | some x => simp only [hdl]; exact Or.inl (dictLookup_mem hdl)
    | none => right; simp only [hdl]

/-- **C3.**  Continuity invariant of normalize-to-daily-grid: in the
output every pair of consecutive points is exactly 86400000 ms apart
(hence every calendar day between the first and the last point is
present), and every output point is either one of the deduplicated
standardized input points (with its value) or a null-valued gap point —
gaps are never interpolated. -/
theorem continuity_invariant (raw : List (Int × Option ℚ)) :
    List.Chain' (fun a b : Int × Option ℚ => b.1 - a.1 = 86400000)
        (standardize_to_daily_utc raw) ∧
      ∀ r ∈ standardize_to_daily_utc raw,
        r ∈ (dedupDays raw).map (fun x => (x.1, some x.2)) ∨ r.2 = none := by
  rw [standardize_to_daily_utc]
  by_cases hlen :
      1 < (sortByTs ((dedupDays raw).map (fun r => (r.1, some r.2)))).length
  · rw [if_pos hlen]
    constructor
    · exact chain'_create_continuous _ none (by omega)
    · intro r hr
      rcases mem_create_continuous hr with h | h
      · exact Or.inl ((List.perm_insertionSort tsLe _).mem_iff.1 h)
      · exact Or.inr h
  · rw [if_neg hlen]
    constructor
    · exact chain'_of_length_le_one (by omega)
    · intro r hr
      exact Or.inl ((List.perm_insertionSort tsLe _).mem_iff.1 hr)

/-- Witness for C3 at a concrete input: two points two days apart; the
output is day-continuous and the missing middle day is a null point. -/
theorem continuity_invariant_witness :
    List.Chain' (fun a b : Int × Option ℚ => b.1 - a.1 = 86400000)
        (standardize_to_daily_utc [(1123200000000, some 1), (1123372800000, some 2)]) ∧
      ((1123286400000, (none : Option ℚ)) ∈
          (dedupDays [(1123200000000, some 1), (1123372800000, some 2)]).map
            (fun x => (x.1, some x.2)) ∨
        (none : Option ℚ) = none) :=
  ⟨(continuity_invariant _).1,
    (continuity_invariant _).2 (1123286400000, none) (by decide)⟩

/-- **C4, counterexample.**  The daily dedup keeps the first point *in
raw input order*, not the one with the smallest original timestamp: for
the unsorted input `[[day+5s, 1], [day+3s, 2]]` both points truncate to
the same day, and the output keeps value 1 (the first encountered),
while the claim (smallest original timestamp wins) predicts value 2. -/
theorem daily_dedup_counterexample :
    standardize_to_daily_utc [(1123200005000, some 1), (1123200003000, some 2)]
        = [(1123200000000, some 1)] ∧
      (1123200000000, some (2 : ℚ)) ∉
        standardize_to_daily_utc [(1123200005000, some 1), (1123200003000, some 2)] :=
  ⟨by decide, by decide⟩

/-- **C4, amended.**  When two or more raw points truncate to the same
UTC day `D`, normalize-to-daily-grid keeps the *first point encountered
in raw input order* (the dedup pass runs before the sort; only for
input already sorted by timestamp is that the point with the smallest
original timestamp), provided its value is non-null, and silently
discards the later ones: the output at day `D` is exactly the first
matching record's value. -/
theorem daily_dedup_first_in_input_order (raw : List (Int × Option ℚ))
    (D t : Int) (q : ℚ)
    (hfind : raw.find? (fun r => normTs r.1 = D) = some (t, some q)) :
    occs D (standardize_to_daily_utc raw) = [(D, some q)] := by
  have h1 : occs D (dedupDays raw) = [(D, q)] :=
    occs_dedupDaysAux_find raw [] (List.not_mem_nil D) hfind
  have h3 : occs D (sortByTs ((dedupDays raw).map (fun x => (x.1, some x.2))))
      = [(D, some q)] := by
    rw [occs_sortByTs, occs_map_some, h1]
    rfl
  rw [standardize_to_daily_utc]
  by_cases hlen :
      1 < (sortByTs ((dedupDays raw).map (fun r => (r.1, some r.2)))).length
  · rw [if_pos hlen]
    refine occs_create_continuous_of_occs (List.sorted_insertionSort _ _) ?_ h3
    intro x hx
    have hx' := (List.perm_insertionSort tsLe _).mem_iff.1 hx
    rcases List.mem_map.1 hx' with ⟨y, hy, rfl⟩
    rcases keys_dedupDaysAux_normTs raw [] y hy with ⟨t', ht'⟩
    exact ht' ▸ dvd_normTs t'
  · rw [if_neg hlen]
    exact h3

/-- Witness for the amended C4 theorem at the counterexample input. -/
theorem daily_dedup_first_in_input_order_witness :
    ([((1123200005000 : Int), some (1 : ℚ)), (1123200003000, some 2)].find?
        (fun r => normTs r.1 = 1123200000000) = some (1123200005000, some 1)) ∧
      occs 1123200000000
          (standardize_to_daily_utc
            [(1123200005000, some 1), (1123200003000, some 2)])
        = [(1123200000000, some 1)] :=
  ⟨by decide,
    daily_dedup_first_in_input_order _ 1123200000000 1123200005000 1 (by decide)⟩

/-! ### The regression-divergence normalizer (src/data/normalizers/zscore.py)

`normalize(dataset_data, asset_price_data, window)` builds a
timestamp→close price dict, aligns prices to the indicator's timestamps
by exact match or forward fill, and for each index `i ≥ window` fits an
OLS line on the preceding `window` (indicator, price) pairs (dropping
pairs with an invalid member) and emits the standardized residual of the
current point.

Embedding notes:
* indicator values are `Option ℚ` (`None` is converted to NaN at line 77
  of the source and then treated as invalid by the `isnan` masks);
* price values are `ℚ`: the embedding's domain is numeric price series
  (the aligned-price forward fill is over these; a leading indicator
  timestamp with no resolvable price is the invalid `none`);
* `np.polyfit(x, y, 1)` is the least-squares line; under the non-zero
  variance guard its unique solution is the closed form
  `beta = Σ(x-x̄)(y-ȳ)/Σ(x-x̄)², alpha = ȳ - beta·x̄`, which is what is
  embedded; under these guards the `try` never fails;
* `np.std(l) == 0` (respectively `> 0`) is embedded as the population
  variance `pvar l = 0` (respectively `0 < pvar l`), which is equivalent
  in exact arithmetic;
* the emitted value `residual / np.std(residuals)` lives in `ℝ`; the
  computable core carries `(timestamp, residual, pvar residuals)` and
  `normalize` maps it to `residual / Real.sqrt (pvar residuals)`. -/

namespace Zscore

/-- `price_lookup` (`{item[0]: close}`): later records overwrite. -/
def priceLookup (p : List (Int × ℚ)) (t : Int) : Option ℚ :=
  (dictLookup t p).map (fun r => r.2)

/-- Timestamp at index `m` of the indicator list. -/
def tsAt (d : List (Int × Option ℚ)) (m : ℕ) : Int := (d.getD m (0, none)).1

/-- `indicator_values[m]` (with `None` ≡ NaN as `none`). -/
def indAt (d : List (Int × Option ℚ)) (m : ℕ) : Option ℚ := (d.getD m (0, none)).2

/-- `aligned_prices[m]`: the looked-up price at the indicator's `m`-th
timestamp, else the previous aligned price, else invalid (`np.nan`). -/
def alignedAt (d : List (Int × Option ℚ)) (p : List (Int × ℚ)) : ℕ → Option ℚ
  | 0 => priceLookup p (tsAt d 0)
  | m + 1 =>
    match priceLookup p (tsAt d (m + 1)) with
    | some v => some v
    | none => alignedAt d p m

/-- `np.mean`. -/
def mean (l : List ℚ) : ℚ := l.sum / l.length

/-- Population variance, the square of `np.std` (default `ddof=0`). -/
def pvar (l : List ℚ) : ℚ := ((l.map (fun x => (x - mean l) ^ 2)).sum) / l.length

/-- The valid (indicator, price) pairs of window `[i-window, i)`:
positions where both the indicator and the aligned price are valid. -/
def validPairs (d : List (Int × Option ℚ)) (p : List (Int × ℚ)) (w i : ℕ) :
    List (ℚ × ℚ) :=
  ((List.range' (i - w) w).map (fun m => (indAt d m, alignedAt d p m))).filterMap
    (fun q =>
      match q.1, q.2 with
      | some x, some y => some (x, y)
      | _, _ => none)

/-- One iteration of the scoring loop at index `i` (guards in source
order: valid-pair count, current-point validity, variance; then the OLS
fit and the final `std_error > 0` emission guard).  Returns
`(timestamp, residual, pvar of window residuals)`. -/
def emitAt (d : List (Int × Option ℚ)) (p : List (Int × ℚ)) (w i : ℕ) :
    Option (Int × ℚ × ℚ) :=
  if (validPairs d p w i).length < 10 then none
  else if alignedAt d p i = none ∨ indAt d i = none then none
  else if pvar ((validPairs d p w i).map (fun q => q.2)) = 0 ∨
      pvar ((validPairs d p w i).map (fun q => q.1)) = 0 then none
  else
    let xb := mean ((validPairs d p w i).map (fun q => q.2))
    let yb := mean ((validPairs d p w i).map (fun q => q.1))
    let beta := ((validPairs d p w i).map (fun q => (q.2 - xb) * (q.1 - yb))).sum /
      ((validPairs d p w i).map (fun q => (q.2 - xb) ^ 2)).sum
    let alpha := yb - beta * xb
    let residual := (indAt d i).getD 0 - (alpha + beta * (alignedAt d p i).getD 0)
    let resw := (validPairs d p w i).map (fun q => q.1 - (alpha + beta * q.2))
    if 0 < pvar resw then some (tsAt d i, residual, pvar resw) else none

/-- The scoring loop `for i in range(window, len(dataset_data))`, after
the early-return guards on empty or too-short inputs. -/
def normalizeCore (d : List (Int × Option ℚ)) (p : List (Int × ℚ)) (w : ℕ) :
    List (Int × ℚ × ℚ) :=
  if d.isEmpty ∨ p.isEmpty then []
  else if d.length < w ∨ p.length < w then []
  else (List.range d.length).filterMap
    (fun i => if i < w then none else emitAt d p w i)

/-- `normalize(dataset_data, asset_price_data, window)`: standardized
residuals `residual / np.std(residuals_window)`. -/
noncomputable def normalize (d : List (Int × Option ℚ)) (p : List (Int × ℚ))
    (w : ℕ) : List (Int × ℝ) :=
  (normalizeCore d p w).map
    (fun x => (x.1, (x.2.1 : ℝ) / Real.sqrt ((x.2.2 : ℚ) : ℝ)))

/-! #### Congruence lemmas: what each index of the output reads -/

theorem alignedAt_congr {d d' : List (Int × Option ℚ)} (p : List (Int × ℚ))
    (hts : ∀ m, tsAt d' m = tsAt d m) :
    ∀ m, alignedAt d' p m = alignedAt d p m
  | 0 => by simp only [alignedAt, hts 0]
  | m + 1 => by
    simp only [alignedAt, hts (m + 1), alignedAt_congr p hts m]

theorem tsAt_set {d : List (Int × Option ℚ)} {i : ℕ} (hi : i < d.length)
    (x : Option ℚ) (m : ℕ) :
    tsAt (d.set i ((d.get ⟨i, hi⟩).1, x)) m = tsAt d m := by
  unfold tsAt
  rw [List.getD_eq_getElem?_getD, List.getD_eq_getElem?_getD]
  by_cases hm : i = m
  · subst hm
    rw [List.getElem?_set_eq hi]
    rw [List.getElem?_eq_getElem hi]
    rfl
  · rw [List.getElem?_set_ne hm]

theorem indAt_set_ne {d : List (Int × Option ℚ)} {i m : ℕ} (r : Int × Option ℚ)
    (hm : m ≠ i) : indAt (d.set i r) m = indAt d m := by
  unfold indAt
  rw [List.getD_eq_getElem?_getD, List.getD_eq_getElem?_getD,
    List.getElem?_set_ne (fun h => hm h.symm)]

theorem tsAt_eq_get {d : List (Int × Option ℚ)} {i : ℕ} (hi : i < d.length) :
    tsAt d i = (d.get ⟨i, hi⟩).1 := by
  unfold tsAt
  rw [List.getD_eq_getElem?_getD, List.getElem?_eq_getElem hi]
  rfl

/-- In a strictly time-ordered indicator list positions and timestamps
are ordered alike. -/
theorem tsAt_mono {d : List (Int × Option ℚ)} (hd : StrictByTs d)
    {a b : ℕ} (hab : a ≤ b) (hb : b < d.length) : tsAt d a ≤ tsAt d b := by
  rcases lt_or_eq_of_le hab with hlt | rfl
  · have ha : a < d.length := lt_trans hlt hb
    have := List.pairwise_iff_get.1 hd ⟨a, ha⟩ ⟨b, hb⟩ hlt
    rw [tsAt_eq_get ha, tsAt_eq_get hb]
    exact le_of_lt this
  · exact le_refl _

theorem validPairs_congr {d d' : List (Int × Option ℚ)} {p p' : List (Int × ℚ)}
    {w i : ℕ} (hw : w ≤ i)
    (hind : ∀ m, m < i → indAt d' m = indAt d m)
    (hal : ∀ m, m < i → alignedAt d' p' m = alignedAt d p m) :
    validPairs d' p' w i = validPairs d p w i := by
  unfold validPairs
  congr 1
  apply List.map_congr_left
  intro m hm
  have hmem := List.mem_range'_1.1 hm
  have hmi : m < i := by omega
  rw [hind m hmi, hal m hmi]

theorem emitAt_congr {d d' : List (Int × Option ℚ)} {p p' : List (Int × ℚ)}
    {w i : ℕ} (hw : w ≤ i)
    (htsi : tsAt d' i = tsAt d i)
    (hind : ∀ m, m ≤ i → indAt d' m = indAt d m)
    (hal : ∀ m, m ≤ i → alignedAt d' p' m = alignedAt d p m) :
    emitAt d' p' w i = emitAt d p w i := by
  have hvp : validPairs d' p' w i = validPairs d p w i :=
    validPairs_congr hw (fun m hm => hind m (le_of_lt hm))
      (fun m hm => hal m (le_of_lt hm))
  simp only [emitAt, hvp, hal i (le_refl i), hind i (le_refl i), htsi]

theorem emitAt_fst {d : List (Int × Option ℚ)} {p : List (Int × ℚ)}
    {w i : ℕ} {o : Int × ℚ × ℚ} (h : emitAt d p w i = some o) :
    o.1 = tsAt d i := by
  simp only [emitAt] at h
  split_ifs at h with h1 h2 h3 h4
  injection h with h'
  rw [← h']

theorem isEmpty_congr {γ δ : Type} {l1 : List γ} {l2 : List δ}
    (h : l1.length = l2.length) : l1.isEmpty = l2.isEmpty := by
  cases l1 <;> cases l2 <;> simp_all

theorem filter_filterMap_opt {γ δ : Type} (f : γ → Option δ) (q : δ → Bool)
    (l : List γ) :
    (l.filterMap f).filter q = l.filterMap (fun x =>
      match f x with
      | some y => if q y then some y else none
      | none => none) := by
  induction l with
  | nil => rfl
  | cons a l ih =>
    rw [List.filterMap_cons, List.filterMap_cons]
    cases hf : f a with
    | none => rw [ih]
    | some y =>
      rw [List.filter_cons, ih]
      by_cases hq : q y <;> simp [hq]

/-- The filtered emissions of the scoring loop at a cut timestamp `T`
only depend on the emissions at indices whose timestamp lies before
`T`. -/
theorem filter_normalizeCore_lt {d d' : List (Int × Option ℚ)}
    {p p' : List (Int × ℚ)} {w : ℕ} (T : Int)
    (hlen_d : d'.length = d.length) (hlen_p : p'.length = p.length)
    (hts : ∀ j, tsAt d' j = tsAt d j)
    (hemit : ∀ j, j < d.length → w ≤ j → tsAt d j < T →
      emitAt d' p' w j = emitAt d p w j) :
    (normalizeCore d' p' w).filter (fun x => decide (x.1 < T))
      = (normalizeCore d p w).filter (fun x => decide (x.1 < T)) := by
  unfold normalizeCore
  rw [isEmpty_congr hlen_d, isEmpty_congr hlen_p, hlen_d, hlen_p]
  by_cases hg1 : d.isEmpty ∨ p.isEmpty
  · rw [if_pos hg1, if_pos hg1]
  · rw [if_neg hg1, if_neg hg1]
    by_cases hg2 : d.length < w ∨ p.length < w
    · rw [if_pos hg2, if_pos hg2]
    · rw [if_neg hg2, if_neg hg2]
      rw [filter_filterMap_opt, filter_filterMap_opt]
      apply List.filterMap_congr
      intro j hj
      rw [List.mem_range] at hj
      by_cases hjw : j < w
      · simp only [if_pos hjw]
      · simp only [if_neg hjw]
        by_cases htj : tsAt d j < T
        · rw [hemit j hj (not_lt.1 hjw) htj]
        · cases he' : emitAt d' p' w j with
          | none =>
            cases he : emitAt d p w j with
            | none => rfl
            | some o =>
              have ho := emitAt_fst he
              show (none : Option (Int × ℚ × ℚ))
                = if decide (o.1 < T) = true then some o else none
              rw [if_neg (by simp only [decide_eq_true_eq, ho]; exact htj)]
          | some o' =>
            have ho' := emitAt_fst he'
            rw [hts j] at ho'
            cases he : emitAt d p w j with
            | none =>
              show (if decide (o'.1 < T) = true then some o' else none)
                = (none : Option (Int × ℚ × ℚ))
              rw [if_neg (by simp only [decide_eq_true_eq, ho']; exact htj)]
            | some o =>
              have ho := emitAt_fst he
              show (if decide (o'.1 < T) = true then some o' else none)
                = if decide (o.1 < T) = true then some o else none
              rw [if_neg (by simp only [decide_eq_true_eq, ho']; exact htj),
                if_neg (by simp only [decide_eq_true_eq, ho]; exact htj)]

/-- Transport of `filter_normalizeCore_lt` to the real-valued output. -/
theorem filter_normalize_lt {d d' : List (Int × Option ℚ)}
    {p p' : List (Int × ℚ)} {w : ℕ} (T : Int)
    (hlen_d : d'.length = d.length) (hlen_p : p'.length = p.length)
    (hts : ∀ j, tsAt d' j = tsAt d j)
    (hemit : ∀ j, j < d.length → w ≤ j → tsAt d j < T →
      emitAt d' p' w j = emitAt d p w j) :
    (normalize d' p' w).filter (fun o => decide (o.1 < T))
      = (normalize d p w).filter (fun o => decide (o.1 < T)) := by
  unfold normalize
  rw [List.filter_map, List.filter_map]
  exact congrArg _ (filter_normalizeCore_lt T hlen_d hlen_p hts hemit)

/-- Replacing the value stored at one key of the price dict (keeping its
timestamp) leaves every other key's lookup unchanged. -/
theorem dictLookup_set_ne {β : Type} :
    ∀ (p : List (Rec β)) (i : ℕ) (hi : i < p.length) (v : β) (t : Int),
      t ≠ (p.get ⟨i, hi⟩).1 →
      dictLookup t (p.set i ((p.get ⟨i, hi⟩).1, v)) = dictLookup t p
  | [], i, hi, _, _, _ => absurd hi (by simp)
  | e :: es, 0, _, v, t, hne => by
    simp only [List.get] at hne
    simp only [List.set, dictLookup, List.get]
    cases dictLookup t es with
    | some x => rfl
    | none =>
      have h1 : ¬ (e.1 : Int) = t := fun h => hne h.symm
      rw [if_neg h1, if_neg h1]
  | e :: es, i + 1, hi, v, t, hne => by
    simp only [List.get] at hne
    simp only [List.set, dictLookup, List.get]
    rw [dictLookup_set_ne es i (by simpa using hi) v t hne]

theorem alignedAt_set_price {d : List (Int × Option ℚ)} {p : List (Int × ℚ)}
    {i : ℕ} (hi : i < p.length) (y : ℚ) {j : ℕ}
    (hkeys : ∀ m, m ≤ j → tsAt d m ≠ (p.get ⟨i, hi⟩).1) :
    ∀ m, m ≤ j → alignedAt d (p.set i ((p.get ⟨i, hi⟩).1, y)) m = alignedAt d p m
  | 0, hm => by
    simp only [alignedAt, priceLookup,
      dictLookup_set_ne p i hi y (tsAt d 0) (hkeys 0 hm)]
  | m + 1, hm => by
    simp only [alignedAt, priceLookup,
      dictLookup_set_ne p i hi y (tsAt d (m + 1)) (hkeys (m + 1) hm),
      alignedAt_set_price hi y hkeys m (le_trans (Nat.le_succ m) hm)]

/-- **C1.**  No-lookahead of the levels normalizer: with a strictly
time-ordered indicator series, replacing the value stored at index `i`
of the indicator (keeping its timestamp) or at index `i` of the price
series does not change any normalized output point at a timestamp
earlier than that index's timestamp.  (The regression window of index
`i` is the preceding `window` positions `[i-window, i)` — see
`validPairs` — and the price forward fill only carries values forward,
which is what makes the price half hold.) -/
theorem normalizer_no_lookahead (d : List (Int × Option ℚ))
    (p : List (Int × ℚ)) (w : ℕ) (hd : StrictByTs d) :
    (∀ (i : ℕ) (hi : i < d.length) (x : Option ℚ),
      (normalize (d.set i ((d.get ⟨i, hi⟩).1, x)) p w).filter
          (fun o => decide (o.1 < (d.get ⟨i, hi⟩).1))
        = (normalize d p w).filter
            (fun o => decide (o.1 < (d.get ⟨i, hi⟩).1))) ∧
    (∀ (i : ℕ) (hi : i < p.length) (y : ℚ),
      (normalize d (p.set i ((p.get ⟨i, hi⟩).1, y)) w).filter
          (fun o => decide (o.1 < (p.get ⟨i, hi⟩).1))
        = (normalize d p w).filter
            (fun o => decide (o.1 < (p.get ⟨i, hi⟩).1))) := by
  constructor
  · intro i hi x
    have hts : ∀ m, tsAt (d.set i ((d.get ⟨i, hi⟩).1, x)) m = tsAt d m :=
      tsAt_set hi x
    refine filter_normalize_lt _ (List.length_set d i _) rfl hts ?_
    intro j hj hwj htj
    have hji : j < i := by
      by_contra hc
      have := tsAt_mono hd (not_lt.1 hc) hj
      rw [tsAt_eq_get hi] at this
      omega
    refine emitAt_congr hwj (hts j) ?_ ?_
    · intro m hm
      exact indAt_set_ne _ (by omega)
    · intro m _
      exact alignedAt_congr p hts m
  · intro i hi y
    refine filter_normalize_lt _ rfl (List.length_set p i _) (fun _ => rfl) ?_
    intro j hj hwj htj
    refine emitAt_congr hwj rfl (fun _ _ => rfl) ?_
    intro m hm
    refine alignedAt_set_price hi y ?_ m hm
    intro m' hm'
    have := tsAt_mono hd hm' hj
    omega

/-- Witness for C1 at a concrete input (changing the newest indicator
value and the newest price leaves the earlier output untouched). -/
theorem normalizer_no_lookahead_witness :
    StrictByTs [((1200000000000 : Int), some (1 : ℚ)), (1200086400000, some 2)] ∧
    (normalize
        ([((1200000000000 : Int), some (1 : ℚ)), (1200086400000, some 2)].set 1
          (1200086400000, some 7))
        [(1200000000000, 3), (1200086400000, 4)] 1).filter
        (fun o => decide (o.1 < 1200086400000))
      = (normalize [((1200000000000 : Int), some (1 : ℚ)), (1200086400000, some 2)]
          [(1200000000000, 3), (1200086400000, 4)] 1).filter
          (fun o => decide (o.1 < 1200086400000)) ∧
    (normalize [((1200000000000 : Int), some (1 : ℚ)), (1200086400000, some 2)]
        ([((1200000000000 : Int), (3 : ℚ)), (1200086400000, 4)].set 1
          (1200086400000, 9)) 1).filter
        (fun o => decide (o.1 < 1200086400000))
      = (normalize [((1200000000000 : Int), some (1 : ℚ)), (1200086400000, some 2)]
          [(1200000000000, 3), (1200086400000, 4)] 1).filter
          (fun o => decide (o.1 < 1200086400000)) :=
  ⟨by decide,
    (normalizer_no_lookahead
        [((1200000000000 : Int), some (1 : ℚ)), (1200086400000, some 2)]
        [((1200000000000 : Int), (3 : ℚ)), (1200086400000, 4)] 1 (by decide)).1
      1 (by decide) (some 7),
    (normalizer_no_lookahead
        [((1200000000000 : Int), some (1 : ℚ)), (1200086400000, some 2)]
        [((1200000000000 : Int), (3 : ℚ)), (1200086400000, 4)] 1 (by decide)).2
      1 (by decide) 9⟩

/-- The sample variance of a constant list is zero (`np.std == 0`). -/
theorem pvar_const {l : List ℚ} {c : ℚ} (h : ∀ v ∈ l, v = c) : pvar l = 0 := by
  have hsum : l.sum = l.length • c := List.sum_eq_card_nsmul l c h
  have hmean : ∀ x ∈ l, x - mean l = 0 := by
    intro x hx
    have hlen : (l.length : ℚ) ≠ 0 := by
      have hpos : 0 < l.length := List.length_pos.2 (List.ne_nil_of_mem hx)
      exact_mod_cast Nat.pos_iff_ne_zero.1 hpos
    rw [h x hx, mean, hsum, nsmul_eq_mul]
    field_simp
  unfold pvar
  have hz : (l.map (fun x => (x - mean l) ^ 2)).sum = 0 := by
    have hall : ∀ y ∈ l.map (fun x => (x - mean l) ^ 2), y = 0 := by
      intro y hy
      rcases List.mem_map.1 hy with ⟨x, hx, rfl⟩
      rw [hmean x hx]
      ring
    rw [List.sum_eq_card_nsmul _ 0 hall, smul_zero]
  rw [hz, zero_div]

/-- Every output point of `normalize` comes from a loop emission. -/
theorem mem_normalize {d : List (Int × Option ℚ)} {p : List (Int × ℚ)}
    {w : ℕ} {t : Int} {z : ℝ} (h : (t, z) ∈ normalize d p w) :
    ∃ j, j < d.length ∧ w ≤ j ∧ ∃ o, emitAt d p w j = some o ∧ o.1 = t := by
  unfold normalize at h
  rcases List.mem_map.1 h with ⟨x, hx, hxe⟩
  have hxt : x.1 = t := congrArg Prod.fst hxe
  unfold normalizeCore at hx
  split_ifs at hx with h1 h2
  · exact absurd hx (List.not_mem_nil _)
  · exact absurd hx (List.not_mem_nil _)
  · rcases List.mem_filterMap.1 hx with ⟨j, hj, hje⟩
    rw [List.mem_range] at hj
    by_cases hjw : j < w
    · rw [if_pos hjw] at hje
      exact absurd hje (by simp)
    · rw [if_neg hjw] at hje
      exact ⟨j, hj, not_lt.1 hjw, x, hje, hxt⟩

/-- **C6.**  Skip rule: for any window size ≥ 10, an index whose
trailing window of valid price values is constant (zero variance)
produces no output point — its timestamp (unique in the series) is
absent from the normalized output entirely. -/
theorem normalizer_skip_rule (d : List (Int × Option ℚ)) (p : List (Int × ℚ))
    (w i : ℕ) (c : ℚ) (hw : 10 ≤ w) (hi : i < d.length)
    (hconst : ∀ v ∈ (validPairs d p w i).map (fun q => q.2), v = c)
    (huniq : ∀ j, j < d.length → j ≠ i → tsAt d j ≠ tsAt d i) :
    ∀ z : ℝ, (tsAt d i, z) ∉ normalize d p w := by
  have hvp0 : pvar ((validPairs d p w i).map (fun q => q.2)) = 0 :=
    pvar_const hconst
  have hemit : emitAt d p w i = none := by
    simp only [emitAt]
    split_ifs with h1 h2 h3 h4
    · rfl
    · rfl
    · rfl
    · exact absurd (Or.inl hvp0) h3
    · rfl
  intro z hz
  rcases mem_normalize hz with ⟨j, hj, hwj, o, ho, hot⟩
  by_cases hji : j = i
  · rw [hji, hemit] at ho
    exact absurd ho (by simp)
  · exact huniq j hj hji ((emitAt_fst ho).symm.trans hot)

/-- Witness for C6: eleven indicator points against a constant price
series, window 10 — index 10 produces no output. -/
theorem normalizer_skip_rule_witness :
    10 ≤ 10 ∧
    10 < ((List.range 11).map
      (fun k => ((1200000000000 + 86400000 * (k : Int)), some (k : ℚ)))).length ∧
    (∀ v ∈ (validPairs
        ((List.range 11).map
          (fun k => ((1200000000000 + 86400000 * (k : Int)), some (k : ℚ))))
        ((List.range 11).map
          (fun k => ((1200000000000 + 86400000 * (k : Int)), (5 : ℚ)))) 10 10).map
        (fun q => q.2), v = (5 : ℚ)) ∧
    (tsAt ((List.range 11).map
        (fun k => ((1200000000000 + 86400000 * (k : Int)), some (k : ℚ)))) 10,
      (0 : ℝ)) ∉
      normalize
        ((List.range 11).map
          (fun k => ((1200000000000 + 86400000 * (k : Int)), some (k : ℚ))))
        ((List.range 11).map
          (fun k => ((1200000000000 + 86400000 * (k : Int)), (5 : ℚ)))) 10 :=
  ⟨by decide, by decide, by decide,
    normalizer_skip_rule _ _ 10 10 5 (by decide) (by decide) (by decide)
      (by decide) 0⟩

end Zscore

/-! ### Alignment & composite aggregator (app.py)

`calculate_composite_average(common_timestamps, aligned_values,
weights)`: determine the weight dict (equal `1/N` weights when `weights`
is `None`, else weights renormalized by their total), then for each
common timestamp sum `weights.get(name, 0.0) * values[i]` over the
aligned components. -/

/-- `weights.get(name, 0.0)`. -/
def weightGet (ws : List (String × ℚ)) (name : String) : ℚ :=
  ((dictLookup name ws).map (fun r => r.2)).getD 0

/-- The weight dict: equal `1/N` weights when `weights is None`, else
the given weights renormalized to sum to 1. -/
def compositeWeights (aligned : List (String × List ℚ)) :
    Option (List (String × ℚ)) → List (String × ℚ)
  | none => aligned.map (fun nv => (nv.1, 1 / (aligned.length : ℚ)))
  | some w0 => w0.map (fun nw => (nw.1, nw.2 / (w0.map (fun x => x.2)).sum))

def calculate_composite_average (common_timestamps : List Int)
    (aligned_values : List (String × List ℚ))
    (weights : Option (List (String × ℚ))) : List (Int × ℚ) :=
  if common_timestamps.isEmpty ∨ aligned_values.isEmpty then []
  else
    (common_timestamps.enum).map (fun it =>
      (it.2, (aligned_values.map (fun nv =>
        weightGet (compositeWeights aligned_values weights) nv.1 *
          nv.2.getD it.1 0)).sum))

theorem dictLookup_eq_none_of_not_key [DecidableEq κ] {t : κ} :
    ∀ {l : List (κ × β)}, (∀ r ∈ l, r.1 ≠ t) → dictLookup t l = none
  | [], _ => rfl
  | r :: rs, h => by
    simp only [dictLookup]
    rw [dictLookup_eq_none_of_not_key (fun x hx => h x (List.mem_cons_of_mem _ hx))]
    rw [if_neg (h r (List.mem_cons_self _ _))]

theorem dictLookup_map_const {c : ℚ} :
    ∀ (names : List String) (n : String), n ∈ names →
      dictLookup n (names.map (fun m => (m, c))) = some (n, c)
  | [], n, hn => absurd hn (List.not_mem_nil n)
  | m :: ms, n, hn => by
    simp only [List.map_cons, dictLookup]
    by_cases hmem : n ∈ ms
    · rw [dictLookup_map_const ms n hmem]
    · have hnone : dictLookup n (ms.map (fun m => (m, c))) = none := by
        apply dictLookup_eq_none_of_not_key
        intro r hr
        rcases List.mem_map.1 hr with ⟨a, ha, rfl⟩
        intro hcon
        exact hmem (hcon ▸ ha)
      have hnm : n = m := by
        rcases List.mem_cons.1 hn with h | h
        · exact h
        · exact absurd h hmem
      rw [hnone, if_pos hnm.symm, hnm]

theorem getElem?_zip_eq {γ δ : Type} :
    ∀ (l1 : List γ) (l2 : List δ) (n : ℕ),
      (l1.zip l2)[n]? =
        match l1[n]?, l2[n]? with
        | some a, some b => some (a, b)
        | _, _ => none
  | [], l2, n => by simp [List.zip]
  | a :: l1, [], n => by simp [List.zip]
  | a :: l1, b :: l2, 0 => by simp
  | a :: l1, b :: l2, n + 1 => by
    simp only [List.zip_cons_cons, List.getElem?_cons_succ]
    exact getElem?_zip_eq l1 l2 n

/-- **C7.**  Equal-weight composite identity: for any nonempty set of
`N` components whose normalized series are all the same list `V` on the
common timestamps, the equal-weight composite (weights omitted) is that
very series at every common timestamp. -/
theorem composite_equal_weight (names : List String) (V : List ℚ)
    (common : List Int) (hne : names ≠ []) (hnd : names.Nodup)
    (hlen : V.length = common.length) :
    calculate_composite_average common (names.map (fun n => (n, V))) none
      = common.zip V := by
  rw [calculate_composite_average]
  have haligned_ne : ¬ (names.map (fun n => (n, V))).isEmpty = true := by
    cases names with
    | nil => exact absurd rfl hne
    | cons a l => simp
  by_cases hc : common.isEmpty
  · rw [if_pos (Or.inl hc)]
    rw [List.isEmpty_iff.1 hc]
    rfl
  · rw [if_neg (by
      intro h
      rcases h with h | h
      · exact hc h
      · exact haligned_ne h)]
    have hws : compositeWeights (names.map (fun n => (n, V))) none
        = names.map (fun n => (n, 1 / (names.length : ℚ))) := by
      simp only [compositeWeights, List.map_map, List.length_map]
      rfl
    have hN0 : (names.length : ℚ) ≠ 0 := by
      have hpos : 0 < names.length := List.length_pos.2 hne
      exact_mod_cast Nat.pos_iff_ne_zero.1 hpos
    apply List.ext_getElem?
    intro n
    rw [List.getElem?_map, List.getElem?_enum, getElem?_zip_eq]
    cases hcn : common[n]? with
    | none =>
      have hvn : V[n]? = none := by
        rw [List.getElem?_eq_none_iff] at hcn ⊢
        omega
      rw [hvn]
      rfl
    | some t =>
      have hn : n < common.length := by
        by_contra hcon
        rw [List.getElem?_eq_none_iff.2 (not_lt.1 hcon)] at hcn
        exact absurd hcn (by simp)
      have hnV : n < V.length := by omega
      rw [List.getElem?_eq_getElem hnV]
      simp only [Option.map_some']
      have hsum : ((names.map (fun m => (m, V))).map (fun nv =>
          weightGet (compositeWeights (names.map (fun m => (m, V))) none) nv.1 *
            nv.2.getD n 0)).sum = V.get ⟨n, hnV⟩ := by
        rw [List.map_map]
        have hmap : ∀ m ∈ names,
            ((fun nv : String × List ℚ =>
                weightGet (compositeWeights (names.map (fun m => (m, V))) none) nv.1 *
                  nv.2.getD n 0) ∘ (fun m => (m, V))) m
              = (1 / (names.length : ℚ)) * V.get ⟨n, hnV⟩ := by
          intro m hm
          simp only [Function.comp]
          rw [hws, weightGet, dictLookup_map_const names m hm]
          rw [List.getD_eq_getElem?_getD, List.getElem?_eq_getElem hnV]
          rfl
        rw [List.map_congr_left hmap]
        rw [List.sum_eq_card_nsmul _ _ (fun x hx => by
          rcases List.mem_map.1 hx with ⟨a, _, rfl⟩
          rfl)]
        rw [List.length_map, nsmul_eq_mul]
        field_simp
      rw [hsum]
      rfl

/-- Witness for C7: three identically-normalized components, equal
weights; the composite reproduces the series. -/
theorem composite_equal_weight_witness :
    (["a", "b", "c"] : List String) ≠ [] ∧
    (["a", "b", "c"] : List String).Nodup ∧
    ([(3 : ℚ), 5] : List ℚ).length = ([(100 : Int), 200] : List Int).length ∧
    calculate_composite_average [(100 : Int), 200]
        ((["a", "b", "c"] : List String).map (fun n => (n, [(3 : ℚ), 5]))) none
      = ([(100 : Int), 200].zip [(3 : ℚ), 5]) :=
  ⟨by decide, by decide, by decide,
    composite_equal_weight ["a", "b", "c"] [3, 5] [100, 200]
      (by decide) (by decide) (by decide)⟩

/-! ### Threshold fallback of the regime classifier
(src/data/markov_regime.py, `simple_threshold_regimes`) -/

/-- Ascending sort of the volatilities (what `np.percentile` does
internally). -/
def sortQ (xs : List ℚ) : List ℚ := xs.insertionSort (fun a b => a ≤ b)

/-- The fractional rank `q * (n - 1) / 100` of `np.percentile`. -/
def prank (n : ℕ) (q : ℚ) : ℚ := q * ((n : ℚ) - 1) / 100

/-- `np.percentile(xs, q)` with the default linear interpolation
between the floor and ceiling ranks. -/
def percentile_linear (xs : List ℚ) (q : ℚ) : ℚ :=
  (sortQ xs).getD (⌊prank xs.length q⌋).toNat 0 +
    (prank xs.length q - (⌊prank xs.length q⌋ : ℚ)) *
      ((sortQ xs).getD ((⌊prank xs.length q⌋).toNat + 1) 0 -
        (sortQ xs).getD (⌊prank xs.length q⌋).toNat 0)

/-- `simple_threshold_regimes(volatility_data, threshold_percentile)`:
label 1 (high volatility) exactly the timestamps whose volatility is
strictly above the percentile threshold of the series, else 0. -/
def simple_threshold_regimes (volatility_data : List (Int × ℚ))
    (threshold_percentile : ℚ) : List (Int × ℕ) :=
  if volatility_data.isEmpty then []
  else
    volatility_data.map (fun r =>
      (r.1,
        if percentile_linear (volatility_data.map (fun x => x.2))
            threshold_percentile < r.2
        then 1 else 0))

theorem getD_map_mul (c : ℚ) (l : List ℚ) (k : ℕ) :
    (l.map (fun x => c * x)).getD k 0 = c * l.getD k 0 := by
  rw [List.getD_eq_getElem?_getD, List.getD_eq_getElem?_getD, List.getElem?_map]
  cases l[k]? with
  | none => simp
  | some x => simp

theorem sortQ_map_mul (xs : List ℚ) {c : ℚ} (hc : 0 < c) :
    sortQ (xs.map (fun x => c * x)) = (sortQ xs).map (fun x => c * x) := by
  haveI : IsAntisymm ℚ (fun a b : ℚ => a ≤ b) := ⟨fun a b h1 h2 => le_antisymm h1 h2⟩
  have hperm : (sortQ (xs.map (fun x => c * x))).Perm ((sortQ xs).map (fun x => c * x)) :=
    (List.perm_insertionSort _ _).trans
      (((List.perm_insertionSort _ xs).map (fun x => c * x)).symm)
  have h1 : List.Sorted (fun a b : ℚ => a ≤ b) (sortQ (xs.map (fun x => c * x))) :=
    List.sorted_insertionSort _ _
  have h2 : List.Sorted (fun a b : ℚ => a ≤ b) ((sortQ xs).map (fun x => c * x)) := by
    have hs := List.sorted_insertionSort (fun a b : ℚ => a ≤ b) xs
    rw [List.Sorted] at hs ⊢
    rw [List.pairwise_map]
    exact hs.imp (fun h => mul_le_mul_of_nonneg_left h (le_of_lt hc))
  exact List.eq_of_perm_of_sorted hperm h1 h2

theorem percentile_linear_smul (xs : List ℚ) (q : ℚ) {c : ℚ} (hc : 0 < c) :
    percentile_linear (xs.map (fun x => c * x)) q
      = c * percentile_linear xs q := by
  unfold percentile_linear
  rw [sortQ_map_mul xs hc, List.length_map, getD_map_mul, getD_map_mul]
  ring

/-- **C8.**  The threshold fallback classifier is a pure deterministic
function of its inputs, labels a timestamp 1 (HighVolatility) exactly
when its volatility is strictly above the percentile threshold of the
series, and is invariant under scaling the whole series by a positive
constant. -/
theorem regime_fallback_props (v : List (Int × ℚ)) (q c : ℚ) :
    (∀ v2 q2, v = v2 → q = q2 →
      simple_threshold_regimes v q = simple_threshold_regimes v2 q2) ∧
    (∀ (i : ℕ) (hi : i < v.length),
      (simple_threshold_regimes v q)[i]? =
        some ((v.get ⟨i, hi⟩).1,
          if percentile_linear (v.map (fun x => x.2)) q < (v.get ⟨i, hi⟩).2
          then 1 else 0)) ∧
    (0 < c →
      simple_threshold_regimes (v.map (fun r => (r.1, c * r.2))) q
        = simple_threshold_regimes v q) := by
  refine ⟨fun v2 q2 hv hq => by rw [hv, hq], ?_, ?_⟩
  · intro i hi
    have hne : ¬ v.isEmpty = true := by
      cases v with
      | nil => exact absurd hi (by simp)
      | cons a l => simp
    rw [simple_threshold_regimes, if_neg hne, List.getElem?_map,
      List.getElem?_eq_getElem hi]
    rfl
  · intro hc
    cases hv : v with
    | nil => rfl
    | cons a l =>
      rw [simple_threshold_regimes, simple_threshold_regimes]
      rw [if_neg (by simp), if_neg (by simp)]
      rw [List.map_map, List.map_map]
      apply List.map_congr_left
      intro r _
      simp only [Function.comp]
      have hmaps : (a :: l).map ((fun x : Int × ℚ => x.2) ∘ fun r => (r.1, c * r.2))
          = ((a :: l).map (fun x => x.2)).map (fun x => c * x) := by
        rw [List.map_map]
        rfl
      rw [show ((a :: l).map ((fun x : Int × ℚ => x.2) ∘ fun r => (r.1, c * r.2)))
          = ((a :: l).map (fun x => x.2)).map (fun x => c * x) from hmaps]
      rw [percentile_linear_smul _ q hc]
      by_cases hlt : percentile_linear ((a :: l).map (fun x => x.2)) q < r.2
      · rw [if_pos hlt, if_pos ((mul_lt_mul_left hc).2 hlt)]
      · rw [if_neg hlt, if_neg (fun h => hlt ((mul_lt_mul_left hc).1 h))]

/-- Witness for C8 at a concrete series. -/
theorem regime_fallback_props_witness :
    (simple_threshold_regimes [((1 : Int), (2 : ℚ)), (2, 10)] 50)[1]? =
        some (((([((1 : Int), (2 : ℚ)), (2, 10)]).get ⟨1, by decide⟩).1),
          if percentile_linear ([((1 : Int), (2 : ℚ)), (2, 10)].map (fun x => x.2)) 50
              < (([((1 : Int), (2 : ℚ)), (2, 10)]).get ⟨1, by decide⟩).2
          then 1 else 0) ∧
    (0 : ℚ) < 3 ∧
    simple_threshold_regimes
        ([((1 : Int), (2 : ℚ)), (2, 10)].map (fun r => (r.1, 3 * r.2))) 50
      = simple_threshold_regimes [((1 : Int), (2 : ℚ)), (2, 10)] 50 :=
  ⟨(regime_fallback_props [((1 : Int), (2 : ℚ)), (2, 10)] 50 3).2.1 1 (by decide),
    by decide,
    (regime_fallback_props [((1 : Int), (2 : ℚ)), (2, 10)] 50 3).2.2 (by decide)⟩

/-! ### Garman-Klass volatility (src/data/volatility.py) -/

/-- OHLCV payload of a bar: open, high, low, close, volume, each
possibly null (the store's continuity filler inserts all-null bars for
missing days). -/
abbrev OhlcvV := Option ℚ × Option ℚ × Option ℚ × Option ℚ × Option ℚ

/-- The all-null payload inserted by `create_continuous_index_with_nan`
for a missing day of a 6-element dataset. -/
def nullBar : OhlcvV := (none, none, none, none, none)

/-- `any(price <= 0 for price in [open, high, low, close])`: Python
evaluates the comparisons left to right and stops at the first `True`;
comparing `None <= 0` raises `TypeError` (modelled as
`Except.error ()`), and this guard sits *outside* the `try` block of
the loop body. -/
def leZeroAny : List (Option ℚ) → Except Unit Bool
  | [] => Except.ok false
  | none :: _ => Except.error ()
  | some q :: rest => if q ≤ 0 then Except.ok true else leZeroAny rest

/-- The Garman-Klass daily term `0.5·ln(H/L)² − (2·ln 2 − 1)·ln(C/O)²`. -/
noncomputable def gkTerm (o h l c : ℚ) : ℝ :=
  0.5 * (Real.log ((h : ℝ) / (l : ℝ))) ^ 2 -
    (2 * Real.log 2 - 1) * (Real.log ((c : ℝ) / (o : ℝ))) ^ 2

/-- Annualized percentage volatility `sqrt(term) · sqrt(252) · 100`. -/
noncomputable def gkValue (o h l c : ℚ) : ℝ :=
  Real.sqrt (gkTerm o h l c) * Real.sqrt 252 * 100

/-- `calculate_gk_volatility(ohlc_data)`.  Per bar: the non-positive
price guard (which raises `TypeError` on a null field), the
`high < low` guard, then the formula inside `try` — `math.sqrt` raises
`ValueError` on a negative argument, which the `except` clause turns
into a skip, modelled by the `gkTerm < 0` branch. -/
noncomputable def calculate_gk_volatility :
    List (Int × OhlcvV) → Except Unit (List (Int × ℝ))
  | [] => Except.ok []
  | (t, o, h, l, c, _vol) :: rest =>
    match leZeroAny [o, h, l, c] with
    | Except.error e => Except.error e
    | Except.ok true => calculate_gk_volatility rest
    | Except.ok false =>
      if h.getD 0 < l.getD 0 then calculate_gk_volatility rest
      else if gkTerm (o.getD 0) (h.getD 0) (l.getD 0) (c.getD 0) < 0 then
        calculate_gk_volatility rest
      else
        (calculate_gk_volatility rest).map
          (fun out => (t, gkValue (o.getD 0) (h.getD 0) (l.getD 0) (c.getD 0)) :: out)

theorem leZeroAny_pos {o h l c : ℚ} (ho : 0 < o) (hh : 0 < h) (hl : 0 < l)
    (hc : 0 < c) :
    leZeroAny [some o, some h, some l, some c] = Except.ok false := by
  simp only [leZeroAny]
  rw [if_neg (not_le.2 ho), if_neg (not_le.2 hh), if_neg (not_le.2 hl),
    if_neg (not_le.2 hc)]

theorem leZeroAny_nonpos {o h l c : ℚ}
    (hbad : o ≤ 0 ∨ h ≤ 0 ∨ l ≤ 0 ∨ c ≤ 0) :
    leZeroAny [some o, some h, some l, some c] = Except.ok true := by
  simp only [leZeroAny]
  by_cases ho : o ≤ 0
  · rw [if_pos ho]
  · rw [if_neg ho]
    by_cases hh : h ≤ 0
    · rw [if_pos hh]
    · rw [if_neg hh]
      by_cases hl : l ≤ 0
      · rw [if_pos hl]
      · rw [if_neg hl]
        rcases hbad with h' | h' | h' | h'
        · exact absurd h' ho
        · exact absurd h' hh
        · exact absurd h' hl
        · rw [if_pos h']

theorem leZeroAny_some_ok (o h l c : ℚ) :
    ∃ b, leZeroAny [some o, some h, some l, some c] = Except.ok b := by
  rcases Classical.em (o ≤ 0 ∨ h ≤ 0 ∨ l ≤ 0 ∨ c ≤ 0) with hbad | hok
  · exact ⟨true, leZeroAny_nonpos hbad⟩
  · push_neg at hok
    exact ⟨false, leZeroAny_pos hok.1 hok.2.1 hok.2.2.1 hok.2.2.2⟩

/-- An all-positive bar with `l ≤ h` and a nonnegative Garman-Klass
term is scored with `gkValue`. -/
theorem gk_cons_emit {t : Int} {o h l c vol : ℚ} {rest : List (Int × OhlcvV)}
    (ho : 0 < o) (hh : 0 < h) (hl : 0 < l) (hc : 0 < c)
    (hhl : ¬ h < l) (hterm : 0 ≤ gkTerm o h l c) :
    calculate_gk_volatility ((t, some o, some h, some l, some c, some vol) :: rest)
      = (calculate_gk_volatility rest).map
          (fun out => (t, gkValue o h l c) :: out) := by
  simp only [calculate_gk_volatility, leZeroAny_pos ho hh hl hc, Option.getD_some]
  rw [if_neg hhl, if_neg (not_lt.2 hterm)]

/-- On bars whose price fields are all numeric, the estimator is total:
every bar is either scored or skipped, and no error is raised. -/
theorem gk_total_of_some :
    ∀ (bars : List (Int × OhlcvV)),
      (∀ b ∈ bars, b.2.1.isSome ∧ b.2.2.1.isSome ∧ b.2.2.2.1.isSome ∧
        b.2.2.2.2.1.isSome) →
      ∃ out, calculate_gk_volatility bars = Except.ok out
  | [], _ => ⟨[], rfl⟩
  | (t, o, h, l, c, vol) :: rest, hall => by
    rcases gk_total_of_some rest
      (fun b hb => hall b (List.mem_cons_of_mem _ hb)) with ⟨out, hout⟩
    obtain ⟨hb1, hb2, hb3, hb4⟩ := hall _ (List.mem_cons_self _ _)
    rcases Option.isSome_iff_exists.1 hb1 with ⟨oq, hoq⟩
    rcases Option.isSome_iff_exists.1 hb2 with ⟨hq, hhq⟩
    rcases Option.isSome_iff_exists.1 hb3 with ⟨lq, hlq⟩
    rcases Option.isSome_iff_exists.1 hb4 with ⟨cq, hcq⟩
    have hoq' : o = some oq := hoq
    have hhq' : h = some hq := hhq
    have hlq' : l = some lq := hlq
    have hcq' : c = some cq := hcq
    subst hoq' hhq' hlq' hcq'
    rcases leZeroAny_some_ok oq hq lq cq with ⟨b, hbz⟩
    cases b with
    | true =>
      exact ⟨out, by simp only [calculate_gk_volatility, hbz]; exact hout⟩
    | false =>
      by_cases hhl : hq < lq
      · exact ⟨out, by
          simp only [calculate_gk_volatility, hbz, Option.getD_some]
          rw [if_pos hhl]
          exact hout⟩
      · by_cases hterm : gkTerm oq hq lq cq < 0
        · exact ⟨out, by
            simp only [calculate_gk_volatility, hbz, Option.getD_some]
            rw [if_neg hhl, if_pos hterm]
            exact hout⟩
        · exact ⟨(t, gkValue oq hq lq cq) :: out, by
            simp only [calculate_gk_volatility, hbz, Option.getD_some]
            rw [if_neg hhl, if_neg hterm, hout]
            rfl⟩

/-- A null-filled gap bar anywhere in the input makes the whole
estimator raise (`TypeError` from `None <= 0`), instead of being
skipped. -/
theorem gk_error_of_nullBar :
    ∀ (bars : List (Int × OhlcvV)) (t : Int),
      (t, nullBar) ∈ bars → calculate_gk_volatility bars = Except.error ()
  | [], t, hmem => absurd hmem (List.not_mem_nil _)
  | (t0, o, h0, l0, c0, v0) :: rest, t, hmem => by
    rcases List.mem_cons.1 hmem with heq | hmem'
    · simp only [nullBar, Prod.mk.injEq] at heq
      obtain ⟨-, rfl, rfl, rfl, rfl, rfl⟩ := heq
      simp only [calculate_gk_volatility, leZeroAny]
    · have herr := gk_error_of_nullBar rest t hmem'
      simp only [calculate_gk_volatility, herr]
      cases hz : leZeroAny [o, h0, l0, c0] with
      | error e => cases e; rfl
      | ok b =>
        cases b with
        | true => rfl
        | false =>
          by_cases hhl : h0.getD 0 < l0.getD 0
          · rw [if_pos hhl]
          · rw [if_neg hhl]
            by_cases hterm : gkTerm (o.getD 0) (h0.getD 0) (l0.getD 0) (c0.getD 0) < 0
            · rw [if_pos hterm]
            · rw [if_neg hterm]
              rfl

/-- **C9.**  Garman-Klass sanity and skip rule: a volatility value is
`sqrt(0.5·ln(H/L)² − (2 ln 2 − 1)·ln(C/O)²)·sqrt(252)·100`
(see `gkValue`); the bar `O=100, H=105, L=95, C=100` is scored with a
strictly positive value, the flat bar `O=H=L=C=100` is scored exactly 0,
and a bar with a non-positive price field or `H < L` contributes no
output. -/
theorem garman_klass_props :
    (∀ t : Int, ∃ v : ℝ,
      calculate_gk_volatility [(t, some 100, some 105, some 95, some 100, some 0)]
        = Except.ok [(t, v)] ∧ 0 < v) ∧
    (∀ t : Int,
      calculate_gk_volatility [(t, some 100, some 100, some 100, some 100, some 0)]
        = Except.ok [(t, 0)]) ∧
    (∀ (t : Int) (o h l c vol : ℚ) (rest : List (Int × OhlcvV)),
      ((o ≤ 0 ∨ h ≤ 0 ∨ l ≤ 0 ∨ c ≤ 0) ∨ h < l) →
      calculate_gk_volatility ((t, some o, some h, some l, some c, some vol) :: rest)
        = calculate_gk_volatility rest) := by
  have hterm105 : gkTerm 100 105 95 100 = 0.5 * Real.log ((105 : ℝ) / 95) ^ 2 := by
    unfold gkTerm
    have h1 : ((100 : ℚ) : ℝ) / ((100 : ℚ) : ℝ) = 1 := by norm_num
    have h2 : ((105 : ℚ) : ℝ) = (105 : ℝ) := by norm_num
    have h3 : ((95 : ℚ) : ℝ) = (95 : ℝ) := by norm_num
    rw [h1, h2, h3, Real.log_one]
    ring
  have hpos : 0 < gkTerm 100 105 95 100 := by
    rw [hterm105]
    have hlog : 0 < Real.log ((105 : ℝ) / 95) := Real.log_pos (by norm_num)
    positivity
  have hterm100 : gkTerm 100 100 100 100 = 0 := by
    unfold gkTerm
    have h1 : ((100 : ℚ) : ℝ) / ((100 : ℚ) : ℝ) = 1 := by norm_num
    rw [h1, Real.log_one]
    ring
  refine ⟨?_, ?_, ?_⟩
  · intro t
    refine ⟨gkValue 100 105 95 100, ?_, ?_⟩
    · rw [gk_cons_emit (by norm_num) (by norm_num) (by norm_num) (by norm_num)
        (by norm_num) (le_of_lt hpos)]
      rfl
    · unfold gkValue
      have h252 : 0 < Real.sqrt 252 := Real.sqrt_pos.2 (by norm_num)
      have hsq : 0 < Real.sqrt (gkTerm 100 105 95 100) := Real.sqrt_pos.2 hpos
      positivity
  · intro t
    rw [gk_cons_emit (by norm_num) (by norm_num) (by norm_num) (by norm_num)
      (by norm_num) (le_of_eq hterm100.symm)]
    unfold gkValue
    rw [hterm100, Real.sqrt_zero, zero_mul, zero_mul]
    rfl
  · intro t o h l c vol rest hbad
    rcases Classical.em (o ≤ 0 ∨ h ≤ 0 ∨ l ≤ 0 ∨ c ≤ 0) with h4 | h4
    · simp only [calculate_gk_volatility, leZeroAny_nonpos h4]
    · have hhl : h < l := by tauto
      push_neg at h4
      simp only [calculate_gk_volatility,
        leZeroAny_pos h4.1 h4.2.1 h4.2.2.1 h4.2.2.2, Option.getD_some]
      rw [if_pos hhl]

/-- Witness for C9 at concrete bars: a non-positive open is skipped,
and the flat bar scores exactly 0. -/
theorem garman_klass_props_witness :
    ((((-1 : ℚ) ≤ 0 ∨ (105 : ℚ) ≤ 0 ∨ (95 : ℚ) ≤ 0 ∨ (100 : ℚ) ≤ 0) ∨
        (105 : ℚ) < 95) ∧
      calculate_gk_volatility
          [((3 : Int), some (-1 : ℚ), some 105, some 95, some 100, some 7)]
        = calculate_gk_volatility ([] : List (Int × OhlcvV))) ∧
    calculate_gk_volatility
        [((4 : Int), some (100 : ℚ), some 100, some 100, some 100, some 0)]
      = Except.ok [((4 : Int), (0 : ℝ))] :=
  ⟨⟨Or.inl (Or.inl (by norm_num)),
      garman_klass_props.2.2 3 (-1) 105 95 100 7 [] (Or.inl (Or.inl (by norm_num)))⟩,
    garman_klass_props.2.1 4⟩

/-- **C10.**  Totality gap of the estimator: on all-numeric bars it is
total (`Except.ok`), but a null-filled bar — exactly the all-null gap
records that `create_continuous_index_with_nan` inserts for missing
days — makes it raise (`TypeError` from `None <= 0`, outside the `try`)
instead of skipping the bar; shown end-to-end on a two-day gap input. -/
theorem gk_null_gap_behavior :
    (∀ bars : List (Int × OhlcvV),
      (∀ b ∈ bars, b.2.1.isSome ∧ b.2.2.1.isSome ∧ b.2.2.2.1.isSome ∧
        b.2.2.2.2.1.isSome) →
      ∃ out, calculate_gk_volatility bars = Except.ok out) ∧
    (∀ (bars : List (Int × OhlcvV)) (t : Int),
      (t, nullBar) ∈ bars → calculate_gk_volatility bars = Except.error ()) ∧
    ((1200086400000, nullBar) ∈
        create_continuous_index_with_nan
          [((1200000000000 : Int),
              ((some (100 : ℚ), some 105, some 95, some 100, some 1) : OhlcvV)),
            (1200172800000, (some (101 : ℚ), some 106, some 96, some 101, some 1))]
          nullBar ∧
      calculate_gk_volatility
          (create_continuous_index_with_nan
            [((1200000000000 : Int),
                ((some (100 : ℚ), some 105, some 95, some 100, some 1) : OhlcvV)),
              (1200172800000, (some (101 : ℚ), some 106, some 96, some 101, some 1))]
            nullBar)
        = Except.error ()) := by
  refine ⟨gk_total_of_some, gk_error_of_nullBar, ⟨?_, ?_⟩⟩
  · decide
  · exact gk_error_of_nullBar _ 1200086400000 (by decide)

/-- Witness for C10: a single numeric bar is processed without error,
and a single null gap bar raises. -/
theorem gk_null_gap_behavior_witness :
    (∀ b ∈ ([((7 : Int),
          ((some (100 : ℚ), some 105, some 95, some 100, some 2) : OhlcvV))] :
        List (Int × OhlcvV)),
      b.2.1.isSome ∧ b.2.2.1.isSome ∧ b.2.2.2.1.isSome ∧ b.2.2.2.2.1.isSome) ∧
    (∃ out, calculate_gk_volatility
        [((7 : Int), ((some (100 : ℚ), some 105, some 95, some 100, some 2) : OhlcvV))]
      = Except.ok out) ∧
    ((5 : Int), nullBar) ∈ ([((5 : Int), nullBar)] : List (Int × OhlcvV)) ∧
    calculate_gk_volatility [((5 : Int), nullBar)] = Except.error () :=
  ⟨by decide,
    gk_null_gap_behavior.1 _ (by decide),
    by decide,
    gk_null_gap_behavior.2.1 _ 5 (by decide)⟩

end KDash
